import Mathlib

/-!
# Chat archive: mining, validation and ingest

A shallow embedding of `src/archive.c` (`parse_message`, `add_message`,
`is_valid`, `init_archive`), of the archive path of `src/main.c`
(`process_archive`), of the peer registry `src/peerlist.c` (`list_to_str`,
`add_peer`, `remove_peer`, `is_connected`, `init_list`) and of the peer-list
path of `src/main.c` (`process_peerlist`, and the registration done by
`peer_receiver_thread`).

Modelling conventions.

* A byte buffer (`uint8_t *`) is a `List Nat`; a read outside the buffer
  yields `0`.  `realloc` and `memcpy` are the list functions below.
* OpenSSL's `MD5` is not part of the repository: it is a parameter
  `MD5 : List Nat → Digest`, a function from the hashed bytes to the 16 bytes
  it writes to its output buffer.  Every theorem holds for every such function.
* The `uint32_t` fields `offset`, `size`, `len` of `struct archive` are `Nat`
  without reduction: they are bounded by the buffer length, and a buffer of
  2^32 bytes is outside what `realloc(arch->str, arch->len + len + 33)` (a
  32-bit size) can produce.  The narrowing conversions that do occur on small
  inputs are explicit: `uint16_t len = parse_message(msg)` is `% 65536`, the
  stored length byte is `% 256`, the header bytes are `% 256`, and the mined
  `unsigned __int128` counter is `% 2^128`.
* The `int` counter of `parse_message` is a `Nat`: it would overflow only on an
  input of 2^31 bytes.
* The host is little-endian (the code reads the nonce through an
  `unsigned __int128 *` and the digest prefix through a `uint16_t *`).
* The mining loop `while (1)` has no bound in the source: `mine` takes a fuel
  argument and `add_message` yields `none` when the fuel runs out.
* The linked list of `struct peer_list` is its dummy head node, the list of the
  nodes that follow it, and the index of the node `last` points to (0 is the
  head).  The `uint32_t` fields `ip`, `sock`, `size` are `Nat`; the blob `str`
  is an `Option`, `none` being the NULL pointer.
* `init_peer_socket` talks to the network: it is a parameter that yields the
  new socket or `none` (the error return).
* The receive buffer of `process_archive` has the size the source passes to
  `malloc`; a write outside it is undefined behaviour and is the result `none`
  of `recv_records`, `recv_archive` and `process_archive`.
* Threads are modelled by the order in which their steps run: for the peer
  registry the sections under `peerlist_mutex`, the creation of a thread pair
  with the address of an `int` variable, and the read of that variable by the
  started thread (`event`, `step`); for the active archive the section of
  `process_archive` under the read lock and the one under the write lock
  (`arch_event`, `arch_step`).  `process_archive` itself is the call that no
  other thread interleaves.
-/

namespace Chat

/-- The 16 bytes `MD5()` writes to its output buffer. -/
abbrev Digest := { d : List Nat // d.length = 16 }

/-- Mirror of `struct archive` (archive.h). -/
structure archive where
  str : List Nat
  offset : Nat
  size : Nat
  len : Nat
deriving DecidableEq, Repr

/-- Mirror of `realloc(p, n)`: a block of `n` bytes that keeps the first `n`
bytes of `p`; the new bytes are unspecified (modelled as zero; `add_message`
overwrites all of them). -/
def realloc : List Nat → Nat → List Nat
  | _, 0 => []
  | [], n + 1 => 0 :: realloc [] n
  | b :: p, n + 1 => b :: realloc p n

/-- Mirror of `memcpy(dst + pos, src, |src|)`: the bytes of `src` replace the
bytes of `dst` from index `pos` on. -/
def memcpy : List Nat → Nat → List Nat → List Nat
  | dst, 0, src => src ++ dst.drop src.length
  | [], _ + 1, src => src
  | d :: dst, pos + 1, src => d :: memcpy dst pos src

/-- Read of a `uint16_t` at byte index `p` (little-endian host). -/
def read16 (str : List Nat) (p : Nat) : Nat :=
  str.getD p 0 + 256 * str.getD (p + 1) 0

/-- The 16 bytes of an `unsigned __int128` in memory (little-endian host). -/
def LE128 (k : Nat) : List Nat :=
  (List.range 16).map (fun i => k / 256 ^ i % 256)

/-- Four bytes of a 32-bit value, most significant first, as written by
`aux[0] = (old_size >> 24) & 0xFF; ...` in `add_message`. -/
def BE32 (n : Nat) : List Nat :=
  [n / 2 ^ 24 % 256, n / 2 ^ 16 % 256, n / 2 ^ 8 % 256, n % 256]

/-- Value of `(b[0] << 24) | (b[1] << 16) | (b[2] << 8) | b[3]` for the four
bytes at index `p`. -/
def readBE32 (str : List Nat) (p : Nat) : Nat :=
  str.getD p 0 * 2 ^ 24 + str.getD (p + 1) 0 * 2 ^ 16 + str.getD (p + 2) 0 * 2 ^ 8
    + str.getD (p + 3) 0

/-- Loop of `parse_message`: `count` is the running counter; the end of the
list stands for the terminating NUL. -/
def parse_message_loop : List Nat → Nat → Nat
  | [], count => count
  | c :: msg, count =>
    if c = 0 then count
    else if c = 10 then count
    else if c < 32 ∨ c > 126 then 0
    else parse_message_loop msg (count + 1)

/-- Mirror of `parse_message` (archive.c). -/
def parse_message (msg : List Nat) : Nat :=
  parse_message_loop msg 0

/-- Mirror of `init_archive` (archive.c). -/
def init_archive : archive :=
  { str := [4, 0, 0, 0, 0], offset := 5, size := 0, len := 5 }

/-- The mining loop of `add_message`: `k` is the value of `*mineptr`; each
round stores the counter at `code`, hashes `n` bytes from `offset`, stores the
digest at `code + 16`, and stops when the two bytes read through `check` are
zero.  The result is the buffer on exit. -/
def mine (MD5 : List Nat → Digest) (offset n code : Nat) :
    Nat → List Nat → Nat → Option (List Nat)
  | 0, _, _ => none
  | fuel + 1, str, k =>
    let str1 := memcpy str code (LE128 k)
    let str2 := memcpy str1 (code + 16) (MD5 ((str1.drop offset).take n)).val
    if read16 str2 (code + 16) = 0 then some str2
    else mine MD5 offset n code fuel str2 ((k + 1) % 2 ^ 128)

/-- Mirror of `add_message` (archive.c): the return value and the archive
afterwards, or `none` when the mining loop does not finish within `fuel`
rounds. -/
def add_message (MD5 : List Nat → Digest) (fuel : Nat) (arch : archive) (msg : List Nat) :
    Option (Nat × archive) :=
  let len := parse_message msg % 65536
  if len = 0 then some (0, arch)
  else
    let str1 := realloc arch.str (arch.len + len + 33)
    let str2 := memcpy str1 arch.len [len % 256]
    let str3 := memcpy str2 (arch.len + 1) (msg.take len)
    let code := arch.len + len + 1
    match mine MD5 arch.offset (arch.len - arch.offset + len + 17) code fuel str3 0 with
    | none => none
    | some str4 =>
      let size := arch.size + 1
      let len1 := arch.len + (len + 33)
      let offset := if size ≥ 20 then arch.offset + (str4.getD arch.offset 0 + 33)
                    else arch.offset
      let old_size := readBE32 str4 1 + 1
      let str5 := memcpy str4 1 (BE32 old_size)
      some (1, { str := str5, offset := offset, size := size, len := len1 })

/-- The `for` loop of `is_valid`: `n` iterations remain, `i` is the loop
counter, `begin_`, `end_` are byte indices into `str`; the result is the
return value and the value of `arch->offset` on exit. -/
def is_valid_loop (MD5 : List Nat → Digest) (str : List Nat) :
    Nat → Nat → Nat → Nat → Nat → Nat → Nat × Nat
  | 0, _, _, _, _, offset => (1, offset)
  | n + 1, i, begin_, end_, md5len, offset =>
    let len := str.getD end_ 0
    let end1 := end_ + (len + 17)
    let md5len1 := md5len + (len + 17)
    if read16 str end1 ≠ 0 then (0, offset)
    else
      let offset1 := if i > 19 then offset + (str.getD begin_ 0 + 33) else offset
      let md5len2 := if i > 20 then md5len1 - (str.getD begin_ 0 + 33) else md5len1
      let begin2 := if i > 20 then begin_ + (str.getD begin_ 0 + 33) else begin_
      if (MD5 ((str.drop begin2).take md5len2)).val ≠ (str.drop end1).take 16 then (0, offset1)
      else is_valid_loop MD5 str n (i + 1) begin2 (end1 + 16) (md5len2 + 16) offset1

/-- Mirror of `is_valid` (archive.c): the return value and the archive
afterwards (only `offset` is written). -/
def is_valid (MD5 : List Nat → Digest) (arch : archive) : Nat × archive :=
  let r := is_valid_loop MD5 arch.str arch.size 1 5 5 0 arch.offset
  (r.1, { arch with offset := r.2 })

/-- The size `process_archive` passes to `malloc` for the receive buffer
(main.c, line 267): `5 + (usize * 289)`, computed in `uint32_t`. -/
def recv_capacity (usize : Nat) : Nat :=
  (5 + usize * 289 % 2 ^ 32) % 2 ^ 32

/-- The record loop of `process_archive` (main.c, lines 279-298), writing into
a buffer of `cap` bytes: `n` records remain to be read from `stream`; `buf` is
the bytes stored so far and `len` their count (`aux - ptr` in the source).  A
round stores `msglen + 33` bytes at `ptr + len`; the result is `none` when
they do not fit in the buffer (a write past the end of the allocation).
Inside the buffer `len` stays below 2^32, so the `uint32_t` sum does not
wrap. -/
def recv_records (cap : Nat) : Nat → List Nat → List Nat → Nat → Option (List Nat × Nat)
  | 0, _, buf, len => some (buf, len)
  | n + 1, stream, buf, len =>
    let msglen := stream.headD 0
    let msg := (stream.drop 1).take msglen
    let codes := (stream.drop (1 + msglen)).take 32
    if len + (msglen + 33) ≤ cap then
      recv_records cap n (stream.drop (1 + msglen + 32)) (buf ++ [msglen] ++ msg ++ codes)
        (len + (msglen + 33))
    else none

/-- The candidate `process_archive` builds from the bytes that follow the type
byte on the socket (main.c, lines 253-304), for a stream that holds every byte
the loop asks for: the buffer has `recv_capacity usize` bytes, the type byte
and the four count bytes are stored first, then the records.  The result is
`none` when a write falls outside the buffer. -/
def recv_archive (stream : List Nat) : Option archive :=
  let usize := readBE32 stream 0
  if 5 ≤ recv_capacity usize then
    (recv_records (recv_capacity usize) usize (stream.drop 4) ([4] ++ stream.take 4) 5).map
      (fun r => { init_archive with size := usize, str := r.1, len := r.2 })
  else none

/-- The test `process_archive` makes while it holds the read lock (main.c,
line 312): `new_archive->size > active_arch->size && is_valid(new_archive)`,
with the short-circuit evaluation of `&&`.  The result is the truth value and
the candidate afterwards (`is_valid` writes its `offset`). -/
def process_archive_test (MD5 : List Nat → Digest) (active_arch new_archive : archive) :
    Bool × archive :=
  if new_archive.size > active_arch.size then
    (decide ((is_valid MD5 new_archive).1 ≠ 0), (is_valid MD5 new_archive).2)
  else (false, new_archive)

/-- Mirror of `process_archive` (main.c, lines 249-332) when no other thread
writes `active_arch` between the test under the read lock and the assignment
under the write lock: the active archive after the call, or `none` when the
receive loop writes outside its buffer. -/
def process_archive (MD5 : List Nat → Digest) (active_arch : archive) (stream : List Nat) :
    Option archive :=
  (recv_archive stream).map (fun new_archive =>
    if (process_archive_test MD5 active_arch new_archive).1 then
      (process_archive_test MD5 active_arch new_archive).2
    else active_arch)

/-- The active archive together with the candidates of the receiver threads
that have passed the test of `process_archive`, have released the read lock
(main.c, line 314) and have not yet taken the write lock (line 315). -/
structure arch_world where
  active_arch : archive
  waiting : List archive
deriving DecidableEq, Repr

/-- The two sections of `process_archive` that run under `archive_lock`, one
receiver thread per peer running them. -/
inductive arch_event where
  | test (stream : List Nat)
  | commit (i : Nat)
deriving DecidableEq, Repr

/-- One event.  `test stream`: a receiver thread receives a candidate and runs
the test under the read lock; when the test holds the thread waits for the
write lock, otherwise it frees the candidate.  `commit i`: the `i`-th waiting
thread runs its section under the write lock, `active_arch = new_archive`
(lines 315-318); the source does not repeat the test there. -/
def arch_step (MD5 : List Nat → Digest) (w : arch_world) : arch_event → Option arch_world
  | arch_event.test stream =>
    (recv_archive stream).map (fun new_archive =>
      if (process_archive_test MD5 w.active_arch new_archive).1 then
        { w with
          waiting := w.waiting ++ [(process_archive_test MD5 w.active_arch new_archive).2] }
      else w)
  | arch_event.commit i =>
    match w.waiting.drop i with
    | [] => some w
    | new_archive :: _ => some { active_arch := new_archive, waiting := w.waiting.eraseIdx i }

/-- The world after a schedule of events. -/
def run_arch_events (MD5 : List Nat → Digest) : arch_world → List arch_event → Option arch_world
  | w, [] => some w
  | w, e :: es => (arch_step MD5 w e).bind (fun w1 => run_arch_events MD5 w1 es)

/-- A run of `add_message` calls that each return 1. -/
def add_messages (MD5 : List Nat → Digest) (fuel : Nat) : archive → List (List Nat) → Option archive
  | arch, [] => some arch
  | arch, msg :: msgs =>
    match add_message MD5 fuel arch msg with
    | some (1, arch1) => add_messages MD5 fuel arch1 msgs
    | _ => none

/-- The content of an input line: the bytes of `msg` before the first NUL or
newline. -/
def content (msg : List Nat) : List Nat :=
  msg.takeWhile (fun b => b != 0 && b != 10)

/-- A message record of the wire format: `length(1) ‖ content(length) ‖
nonce(16) ‖ digest(16)`; the length byte is the length of `content`. -/
structure record where
  content : List Nat
  nonce : List Nat
  digest : List Nat
deriving DecidableEq, Repr

/-- The bytes of a record up to and including its nonce. -/
def record.upto_nonce (r : record) : List Nat :=
  r.content.length :: (r.content ++ r.nonce)

/-- The bytes of a record. -/
def record.bytes (r : record) : List Nat :=
  r.upto_nonce ++ r.digest

/-- A record is well formed when its length fits a byte and its nonce and
digest have 16 bytes each. -/
def record.wf (r : record) : Prop :=
  r.content.length ≤ 255 ∧ r.nonce.length = 16 ∧ r.digest.length = 16

/-- The concatenated bytes of a sequence of records. -/
def records_bytes : List record → List Nat
  | [] => []
  | r :: rs => r.bytes ++ records_bytes rs

/-- The hash domain of record `i` (1-based) in the spec's words: the contiguous
bytes from the start of record `max(1, i-19)` up to and including the nonce of
record `i`, that is, the bytes of records `max(1, i-19) .. i` without the last
16 (the digest of record `i`). -/
def hash_domain (rs : List record) (i : Nat) : List Nat :=
  let b := records_bytes ((rs.take i).drop (max 1 (i - 19) - 1))
  b.take (b.length - 16)

/-- The hash-domain invariant for every record of `post`, where `pre` is the
records that come before `post` in the archive. -/
def chain_ok (MD5 : List Nat → Digest) : List record → List record → Prop
  | _, [] => True
  | pre, r :: post =>
    (r.digest.getD 0 0 = 0 ∧ r.digest.getD 1 0 = 0 ∧
      (MD5 (records_bytes (pre.drop (pre.length - 19)) ++ r.upto_nonce)).val = r.digest)
    ∧ chain_ok MD5 (pre ++ [r]) post

/-- The byte index at which the `j`-th call (1-based) of a run of successful
`add_message` calls on `msgs` writes its record: the value of `arch->len` before
that call, which starts at 5 and grows by `len + 33` with every call. -/
def record_start (msgs : List (List Nat)) (j : Nat) : Nat :=
  5 + ((msgs.take (j - 1)).map (fun m => parse_message m % 65536 + 33)).sum

/-- The representation invariant of an archive that holds the records `rs`:
header and framing, the `len`, `size` and `offset` fields, and the hash-domain
invariant of every record. -/
structure archive_inv (MD5 : List Nat → Digest) (a : archive) (rs : List record) : Prop where
  str_eq : a.str = 4 :: (BE32 rs.length ++ records_bytes rs)
  len_eq : a.len = a.str.length
  size_eq : a.size = rs.length
  offset_eq : a.offset = 5 + (records_bytes (rs.take (rs.length - 19))).length
  wf : ∀ r ∈ rs, r.wf
  chain : chain_ok MD5 [] rs

/-! ## The peer registry (`src/peerlist.c`) and `process_peerlist` -/

/-- Mirror of `struct node` (peerlist.h) without its `next` pointer, which is
the position of the node in the chain. -/
structure node where
  ip : Nat
  sock : Nat
deriving DecidableEq, Repr

/-- Mirror of `struct peer_list` (peerlist.h).  `head` is the first node, which
holds no peer; `nodes` is the chain `head->next`, `head->next->next`, ... up to
the NULL pointer; `last` is the number of `next` steps from `head` to the node
the `last` pointer points to; `str` is `none` for the NULL pointer.  The
`uint32_t` fields are `Nat`, as for `struct archive`. -/
structure peer_list where
  head : node
  nodes : List node
  last : Nat
  size : Nat
  str : Option (List Nat)
deriving DecidableEq, Repr

/-- The four bytes `list_to_str` writes for one address: `buf[i] = ip & 0xFF`,
`buf[i + 1] = (ip >> 8) & 0xFF`, `buf[i + 2] = (ip >> 16) & 0xFF`,
`buf[i + 3] = (ip >> 24) & 0xFF`. -/
def ip_bytes (ip : Nat) : List Nat :=
  [ip % 256, ip / 2 ^ 8 % 256, ip / 2 ^ 16 % 256, ip / 2 ^ 24 % 256]

/-- The `for` loop of `list_to_str`: `n` iterations remain and `aux` is the
chain from the current node on.  The source dereferences `aux` without a test;
the model stops at the end of the chain. -/
def list_to_str_loop : Nat → List node → List Nat
  | 0, _ => []
  | _ + 1, [] => []
  | n + 1, aux :: rest => ip_bytes aux.ip ++ list_to_str_loop n rest

/-- Mirror of `list_to_str` (peerlist.c): the list with its string
representation recomputed. -/
def list_to_str (list : peer_list) : peer_list :=
  { list with str := some (2 :: (BE32 list.size ++ list_to_str_loop list.size list.nodes)) }

/-- Mirror of `add_peer` (peerlist.c): the new node becomes the `next` of the
node `last` points to. -/
def add_peer (list : peer_list) (ip sock : Nat) : peer_list :=
  list_to_str { list with
    nodes := list.nodes.take list.last ++ [{ ip := ip, sock := sock }],
    last := list.last + 1,
    size := list.size + 1 }

/-- The `while` loop of `remove_peer`: `prev` is the number of `next` steps
from `head` to the node `prev` points to, and the list is the chain from
`prev->next` on.  The result is `prev` on exit. -/
def find_prev (ip last : Nat) : List node → Nat → Nat
  | [], prev => prev
  | n :: rest, prev =>
    if prev = last then prev
    else if n.ip = ip then prev
    else find_prev ip last rest (prev + 1)

/-- Mirror of `remove_peer` (peerlist.c).  After the node at position
`prev + 1` is unlinked, the node `last` points to is one position nearer to
`head` when the unlinked node came before it. -/
def remove_peer (list : peer_list) (ip : Nat) : peer_list :=
  let prev := find_prev ip list.last list.nodes 0
  match list.nodes.drop prev with
  | [] => list
  | _ :: rest =>
    list_to_str { list with
      nodes := list.nodes.take prev ++ rest,
      last := if prev + 1 = list.last then prev
              else if prev + 1 < list.last then list.last - 1 else list.last,
      size := list.size - 1 }

/-- The `while` loop of `is_connected`: the list is the chain from `aux` on. -/
def is_connected_loop (ip : Nat) : List node → Nat
  | [] => 0
  | aux :: rest => if aux.ip = ip then 1 else is_connected_loop ip rest

/-- Mirror of `is_connected` (peerlist.c): the scan starts at `list->head`. -/
def is_connected (list : peer_list) (ip : Nat) : Nat :=
  is_connected_loop ip (list.head :: list.nodes)

/-- Mirror of `init_list` (peerlist.c); the `sock` field of the head node is
not initialised by the source and is 0 here. -/
def init_list : peer_list :=
  { head := { ip := 0, sock := 0 }, nodes := [], last := 0, size := 0, str := none }

/-- A call of one of the two mutators of the registry. -/
inductive peer_op where
  | add (ip sock : Nat)
  | remove (ip : Nat)
deriving DecidableEq, Repr

/-- The registry after one mutator call. -/
def apply_op (list : peer_list) : peer_op → peer_list
  | peer_op.add ip sock => add_peer list ip sock
  | peer_op.remove ip => remove_peer list ip

/-- The registry after a sequence of mutator calls. -/
def run_ops (list : peer_list) (ops : List peer_op) : peer_list :=
  ops.foldl apply_op list

/-- The entry sequence with the first entry of address `ip` removed. -/
def erase_first (ip : Nat) : List node → List node
  | [] => []
  | n :: rest => if n.ip = ip then rest else n :: erase_first ip rest

/-- The address bytes of the entries, in list order. -/
def peers_bytes : List node → List Nat
  | [] => []
  | n :: rest => ip_bytes n.ip ++ peers_bytes rest

/-- The facts about the registry that every mutator call keeps. -/
structure registry_inv (list : peer_list) : Prop where
  last_eq : list.last = list.nodes.length
  size_eq : list.size = list.nodes.length
  head_ip : list.head.ip = 0
  str_eq : list.str = none
    ∨ list.str = some (2 :: (BE32 list.size ++ peers_bytes list.nodes))

/-- The address `process_peerlist` decodes from the four bytes of an entry:
`(buf[3] << 24) | (buf[2] << 16) | (buf[1] << 8) | buf[0]`. -/
def decode_ip (buf : List Nat) : Nat :=
  buf.getD 3 0 * 2 ^ 24 + buf.getD 2 0 * 2 ^ 16 + buf.getD 1 0 * 2 ^ 8 + buf.getD 0 0

/-- What `process_peerlist` does besides reading its socket and writing its
log: calls of `init_peer_socket` and creations of a requester/receiver thread
pair for a socket. -/
inductive action where
  | connect (ip : List Nat)
  | spawn (sock : Nat)
deriving DecidableEq, Repr

/-- The body of the `for` loop of `process_peerlist` (main.c, lines 203-239)
for the four bytes `buf` of one entry: the registry afterwards and the actions
taken.  `init_peer_socket` is the connection attempt on the dotted address,
`none` for the return value -1. -/
def process_entry (myaddr : Nat) (init_peer_socket : List Nat → Option Nat)
    (list : peer_list) (buf : List Nat) : peer_list × List action :=
  let uip := decode_ip buf
  if uip = myaddr then (list, [])
  else if is_connected list uip = 0 then
    match init_peer_socket (buf.take 4) with
    | none => (list, [action.connect (buf.take 4)])
    | some newpeersock => (list, [action.connect (buf.take 4), action.spawn newpeersock])
  else (list, [])

/-- The `for` loop of `process_peerlist`: `n` entries remain on `stream`. -/
def process_peerlist_loop (myaddr : Nat) (init_peer_socket : List Nat → Option Nat) :
    Nat → List Nat → peer_list → peer_list × List action
  | 0, _, list => (list, [])
  | n + 1, stream, list =>
    let r := process_entry myaddr init_peer_socket list (stream.take 4)
    let r2 := process_peerlist_loop myaddr init_peer_socket n (stream.drop 4) r.1
    (r2.1, r.2 ++ r2.2)

/-- Mirror of `process_peerlist` (main.c) on the bytes that follow the type
byte, for a stream that holds every byte the loop asks for. -/
def process_peerlist (myaddr : Nat) (init_peer_socket : List Nat → Option Nat)
    (list : peer_list) (stream : List Nat) : peer_list × List action :=
  process_peerlist_loop myaddr init_peer_socket (readBE32 stream 0) (stream.drop 4) list

/-- The sockets for which an action list creates a thread pair. -/
def spawned : List action → List Nat
  | [] => []
  | action.spawn s :: rest => s :: spawned rest
  | action.connect _ :: rest => spawned rest

/-- The state the peer threads share.  `vars` holds the `int` variables whose
address is handed to created threads (`newpeersock` of a running
`process_peerlist` call, `peersock` of `incoming_peers_thread`, `sock` of
`main`), by an id, latest value first, `none` for -1; a read after the block
of the variable has ended yields the value stored last.  `peers` is the peer
address of every connected socket, as `getpeername` reports it.  `created` is
the receiver threads created and not yet started, each with the id of the
variable its argument points to.  `pending` is the receiver threads that have
read their socket and address (main.c, lines 413-424) and have not yet run
their `add_peer` (lines 427-430). -/
structure world where
  list : peer_list
  vars : List (Nat × Option Nat)
  peers : List (Nat × Nat)
  created : List Nat
  pending : List node
deriving DecidableEq, Repr

/-- The steps of the peer threads: the sections that run under
`peerlist_mutex`, the creation of a thread pair for a connection, and the
start of a receiver thread. -/
inductive event where
  | entry (v : Nat) (buf : List Nat) (result : Option Nat)
  | accepted (v ip sock : Nat)
  | start (i : Nat) (stale : Nat)
  | register (i : Nat)
  | disconnect (ip : Nat)
deriving DecidableEq, Repr

/-- One event.

* `entry v buf result`: a receiver thread runs the locked section of
  `process_peerlist` for an entry; `v` is its variable `newpeersock` and
  `result` is what `init_peer_socket` returns.  When a connection is tried the
  variable is assigned; when it succeeds the socket is connected to the decoded
  address and a thread pair is created with `&newpeersock`.
* `accepted v ip sock`: `incoming_peers_thread` (or `main`, for the first
  peer) stores the socket of a connection to `ip` in its variable `v` and
  creates a thread pair with the address of that variable.
* `start i stale`: the `i`-th created receiver thread reads `*sock` and asks
  `getpeername` for the address; for a socket that is not connected the call
  fails and the address is what the uninitialised `peeraddr` holds, `stale`.
  The `int` socket is passed on as `uint32_t`, so -1 becomes 2^32 - 1.
* `register i`: the `i`-th pending receiver thread runs its locked `add_peer`.
* `disconnect ip`: a receiver thread runs its locked `remove_peer`. -/
def step (myaddr : Nat) (w : world) : event → world
  | event.entry v buf result =>
    let r := process_entry myaddr (fun _ => result) w.list buf
    match r.2, spawned r.2 with
    | [], _ => { w with list := r.1 }
    | _ :: _, [] => { w with list := r.1, vars := (v, none) :: w.vars }
    | _ :: _, s :: _ =>
      { w with
        list := r.1,
        vars := (v, some s) :: w.vars,
        peers := (s, decode_ip buf) :: w.peers,
        created := w.created ++ [v] }
  | event.accepted v ip sock =>
    { w with
      vars := (v, some sock) :: w.vars,
      peers := (sock, ip) :: w.peers,
      created := w.created ++ [v] }
  | event.start i stale =>
    match w.created.drop i with
    | [] => w
    | v :: _ =>
      let peersock := (w.vars.lookup v).getD none
      let upeerip := ((peersock.bind (fun s => w.peers.lookup s)).getD stale)
      { w with
        created := w.created.eraseIdx i,
        pending := w.pending ++ [{ ip := upeerip, sock := peersock.getD (2 ^ 32 - 1) }] }
  | event.register i =>
    match w.pending.drop i with
    | [] => w
    | n :: _ => { w with list := add_peer w.list n.ip n.sock, pending := w.pending.eraseIdx i }
  | event.disconnect ip => { w with list := remove_peer w.list ip }

/-- The world after a schedule of events, from the state `main` sets up. -/
def run_events (myaddr : Nat) (events : List event) : world :=
  events.foldl (step myaddr)
    { list := init_list, vars := [], peers := [], created := [], pending := [] }

/-! ## Stand-ins for `MD5` and concrete runs -/

/-- A small stand-in for `MD5`, used to evaluate the definitions on concrete
inputs: the digest records the sum and the number of the hashed bytes, and its
first byte is zero for one input in three. -/
def toyMD5 (w : List Nat) : Digest :=
  ⟨[w.sum % 3, 0, w.sum % 256, w.sum / 256 % 256, w.length % 256, w.length / 256 % 256,
    0, 0, 0, 0, 0, 0, 0, 0, 0, 0], rfl⟩

/-- A second stand-in for `MD5`, for long runs: the digest records the number
of hashed bytes and starts with two zero bytes, so the first nonce tried is
accepted. -/
def lenMD5 (w : List Nat) : Digest :=
  ⟨[0, 0, w.length % 256, w.length / 256 % 256, 0, 0, 0, 0, 0, 0, 0, 0, 0, 0, 0, 0], rfl⟩

/-- A run of 21 short inputs; the first two differ in length. -/
def mixed_lengths : List (List Nat) :=
  [97] :: [97, 98] :: List.replicate 19 [97]

/-- The record that `add_message` mines for the message `hi` with `toyMD5`. -/
def hi_record : record :=
  ⟨[104, 105], LE128 2, [0, 0, 213, 0, 19, 0, 0, 0, 0, 0, 0, 0, 0, 0, 0, 0]⟩

/-- The archive that holds the message `hi`, mined with `toyMD5`. -/
def hi : archive :=
  { str := [4, 0, 0, 0, 1, 2, 104, 105, 2, 0, 0, 0, 0, 0, 0, 0, 0, 0, 0, 0, 0, 0, 0, 0, 0, 0,
      213, 0, 19, 0, 0, 0, 0, 0, 0, 0, 0, 0, 0, 0],
    offset := 5, size := 1, len := 40 }

/-- The archive that holds the two messages `hi` and `there`, mined with
`toyMD5`. -/
def hi_there : archive :=
  { str := [4, 0, 0, 0, 2, 2, 104, 105, 2, 0, 0, 0, 0, 0, 0, 0, 0, 0, 0, 0, 0, 0, 0, 0, 0, 0,
      213, 0, 19, 0, 0, 0, 0, 0, 0, 0, 0, 0, 0, 0, 5, 116, 104, 101, 114, 101, 1, 0, 0, 0, 0,
      0, 0, 0, 0, 0, 0, 0, 0, 0, 0, 0, 0, 0, 219, 3, 57, 0, 0, 0, 0, 0, 0, 0, 0, 0, 0, 0],
    offset := 5, size := 2, len := 78 }

/-- Well-formedness of a record is decidable. -/
instance (r : record) : Decidable r.wf := by
  unfold record.wf
  infer_instance

/-- The records that a run of `add_message` calls stores when the hash is
`lenMD5`, which accepts the first nonce tried: record `i` holds the content,
the nonce 0 and the digest of the bytes of the last 19 records before it
followed by its own length byte, content and nonce. -/
def mined_records : List record → List (List Nat) → List record
  | rs, [] => rs
  | rs, c :: cs =>
    mined_records (rs ++ [⟨c, LE128 0,
      (lenMD5 (records_bytes (rs.drop (rs.length - 19)) ++ (c.length :: (c ++ LE128 0)))).val⟩]) cs

/-- The 21 records mined from `mixed_lengths`. -/
def mixed_records : List record :=
  mined_records [] mixed_lengths

/-- The candidate archive that `process_archive` builds when a peer sends the
records `mixed_records`. -/
def mixed_candidate : archive :=
  { str := [4, 0, 0, 0, 21] ++ records_bytes mixed_records, offset := 5, size := 21,
    len := 5 + (records_bytes mixed_records).length }

/-- The hash window of a record with the one content byte `a` and the nonce
`N1`. -/
def inner_window (N1 : List Nat) : List Nat :=
  1 :: 97 :: N1

/-- 33 content bytes that read as a record themselves once a length byte 1 is
put in front: the byte `a`, the nonce `N1`, and the digest of `inner_window`. -/
def outer_content (MD5 : List Nat → Digest) (N1 : List Nat) : List Nat :=
  97 :: (N1 ++ (MD5 (inner_window N1)).val)

/-- The hash window of the record with content `outer_content` and nonce
`N2`, as record 1 of an archive. -/
def outer_window (MD5 : List Nat → Digest) (N1 N2 : List Nat) : List Nat :=
  33 :: (outer_content MD5 N1 ++ N2)

/-- The bytes of an archive of one record: header with count 1, the length
byte `b`, the content `outer_content`, the nonce `N2` and the digest of
`outer_window`. -/
def nested_str (MD5 : List Nat → Digest) (N1 N2 : List Nat) (b : Nat) : List Nat :=
  [4, 0, 0, 0, 1] ++ (b :: (outer_content MD5 N1
    ++ (N2 ++ (MD5 (outer_window MD5 N1 N2)).val)))

/-- The archive with the bytes `nested_str`, as `process_archive` builds it
from a peer's bytes. -/
def nested (MD5 : List Nat → Digest) (N1 N2 : List Nat) (b : Nat) : archive :=
  { str := nested_str MD5 N1 N2 b, offset := 5, size := 1, len := 71 }

/-- The archive that the run `mixed_lengths` builds with `lenMD5`. -/
def mixed_built : archive :=
  { str := [4, 0, 0, 0, 21] ++ records_bytes mixed_records, offset := 74, size := 21,
    len := 720 }

/-! ## Buffer lemmas -/

theorem drop_take_mid (A B C : List Nat) (p n : Nat) (hp : p = A.length) (hn : n = B.length) :
    ((A ++ (B ++ C)).drop p).take n = B := by
  subst hp hn
  simp

theorem getD_mid (A C : List Nat) (b p : Nat) (hp : p = A.length) :
    (A ++ b :: C).getD p 0 = b := by
  subst hp
  rw [List.getD_append_right _ _ _ _ (le_refl _)]
  simp

theorem memcpy_mid (A X C src : List Nat) (p : Nat) (hp : p = A.length)
    (hX : X.length = src.length) : memcpy (A ++ (X ++ C)) p src = A ++ (src ++ C) := by
  subst hp
  induction A with
  | nil =>
    show memcpy (X ++ C) 0 src = src ++ C
    rw [memcpy, ← hX, List.drop_left]
  | cons a A ih =>
    show memcpy (a :: (A ++ (X ++ C))) (A.length + 1) src = a :: (A ++ (src ++ C))
    rw [memcpy, ih]

theorem realloc_nil (k : Nat) : realloc [] k = List.replicate k 0 := by
  induction k with
  | zero => rfl
  | succ k ih => rw [realloc, ih]; rfl

theorem realloc_grow (p : List Nat) (k : Nat) :
    realloc p (p.length + k) = p ++ List.replicate k 0 := by
  induction p with
  | nil => simp [realloc_nil]
  | cons b p ih =>
    have : (b :: p).length + k = (p.length + k) + 1 := by simp; omega
    rw [this, realloc, ih]
    rfl

theorem LE128_length (k : Nat) : (LE128 k).length = 16 := by
  simp [LE128]

theorem BE32_length (n : Nat) : (BE32 n).length = 4 := by
  simp [BE32]

theorem read16_eq_zero (d : List Nat) (A C : List Nat) (p : Nat) (hp : p = A.length)
    (hd : 2 ≤ d.length) :
    read16 (A ++ (d ++ C)) p = 0 ↔ d.getD 0 0 = 0 ∧ d.getD 1 0 = 0 := by
  subst hp
  match d, hd with
  | d0 :: d1 :: ds, _ =>
    unfold read16
    rw [List.getD_append_right _ _ _ _ (le_refl _),
      List.getD_append_right _ _ _ _ (Nat.le_succ _)]
    simp

theorem readBE32_append (s T : List Nat) (h5 : 5 ≤ s.length) :
    readBE32 (s ++ T) 1 = readBE32 s 1 := by
  unfold readBE32
  rw [List.getD_append _ _ _ _ (by omega), List.getD_append _ _ _ _ (by omega),
    List.getD_append _ _ _ _ (by omega), List.getD_append _ _ _ _ (by omega)]

theorem memcpy_header (s T B : List Nat) (h5 : 5 ≤ s.length) (hB : B.length = 4) :
    memcpy (s ++ T) 1 B = s.take 1 ++ (B ++ (s.drop 5 ++ T)) := by
  have hsplit : s = s.take 1 ++ ((s.drop 1).take 4 ++ s.drop 5) := by
    conv_lhs => rw [← List.take_append_drop 1 s, ← List.take_append_drop 4 (s.drop 1)]
    simp
  have := memcpy_mid (s.take 1) ((s.drop 1).take 4) (s.drop 5 ++ T) B 1
    (by simp; omega) (by simp; omega)
  rw [← List.append_assoc ((s.drop 1).take 4), ← List.append_assoc (s.take 1), ← hsplit] at this
  exact this

theorem getD_append_cons (s rest : List Nat) (x p : Nat) (hp : p ≤ s.length) :
    (s ++ x :: rest).getD p 0 = (s ++ [x]).getD p 0 := by
  have : s ++ x :: rest = (s ++ [x]) ++ rest := by simp
  rw [this, List.getD_append _ _ _ _ (by simp; omega)]

/-! ## The mining loop and `add_message` in closed form -/

theorem mine_some (MD5 : List Nat → Digest) (offset n code : Nat) (P : List Nat)
    (hP : P.length = code) (hn : offset + n ≤ code + 16) :
    ∀ (fuel : Nat) (X Y : List Nat) (k : Nat) (r : List Nat), X.length = 16 → Y.length = 16 →
      mine MD5 offset n code fuel (P ++ (X ++ Y)) k = some r →
      ∃ k1, r = P ++ (LE128 k1 ++ (MD5 (((P ++ LE128 k1).drop offset).take n)).val) ∧
        (MD5 (((P ++ LE128 k1).drop offset).take n)).val.getD 0 0 = 0 ∧
        (MD5 (((P ++ LE128 k1).drop offset).take n)).val.getD 1 0 = 0 := by
  intro fuel
  induction fuel with
  | zero => intro X Y k r _ _ h; simp [mine] at h
  | succ fuel ih =>
    intro X Y k r hX hY h
    have h1 : memcpy (P ++ (X ++ Y)) code (LE128 k) = P ++ (LE128 k ++ Y) :=
      memcpy_mid P X Y (LE128 k) code hP.symm (by rw [hX, LE128_length])
    have hw : ((P ++ (LE128 k ++ Y)).drop offset).take n
        = ((P ++ LE128 k).drop offset).take n := by
      rw [← List.append_assoc, List.drop_append_of_le_length, List.take_append_of_le_length]
      · simp [LE128_length]; omega
      · simp [LE128_length]; omega
    have h2 : ∀ d : List Nat, d.length = 16 →
        memcpy (P ++ (LE128 k ++ Y)) (code + 16) d = P ++ (LE128 k ++ d) := by
      intro d hd
      have := memcpy_mid (P ++ LE128 k) Y [] d (code + 16)
        (by simp [LE128_length, hP]) (by rw [hY, hd])
      simpa [List.append_assoc] using this
    unfold mine at h
    simp only [h1, hw, h2 _ (MD5 _).property] at h
    have h3 := read16_eq_zero (MD5 (((P ++ LE128 k).drop offset).take n)).val (P ++ LE128 k) []
      (code + 16) (by simp [LE128_length, hP]) (by rw [(MD5 _).property]; omega)
    simp only [List.append_nil, List.append_assoc] at h3
    split at h
    · rename_i hz
      refine ⟨k, ?_, h3.1 hz⟩
      simpa using h.symm
    · exact ih (LE128 k) _ _ r (LE128_length k) (MD5 _).property h

theorem mine_mono (MD5 : List Nat → Digest) (offset n code : Nat) :
    ∀ (fuel : Nat) (str : List Nat) (k : Nat) (r : List Nat),
      mine MD5 offset n code fuel str k = some r →
      mine MD5 offset n code (fuel + 1) str k = some r := by
  intro fuel
  induction fuel with
  | zero => intro str k r h; simp [mine] at h
  | succ fuel ih =>
    intro str k r h
    rw [mine] at h ⊢
    split
    · rename_i hz; rw [if_pos hz] at h; exact h
    · rename_i hz; rw [if_neg hz] at h; exact ih _ _ _ h

/-! ## `parse_message` -/

theorem parse_message_loop_eq (msg : List Nat) : ∀ count : Nat,
    parse_message_loop msg count
      = if ∀ b ∈ content msg, 32 ≤ b ∧ b ≤ 126 then count + (content msg).length else 0 := by
  induction msg with
  | nil => intro count; simp [parse_message_loop, content]
  | cons c msg ih =>
    intro count
    unfold parse_message_loop
    by_cases h0 : c = 0
    · simp [h0, content]
    by_cases h10 : c = 10
    · simp [h10, content]
    have hc : content (c :: msg) = c :: content msg := by
      simp [content, List.takeWhile_cons, h0, h10]
    rw [if_neg h0, if_neg h10, hc]
    by_cases hbad : c < 32 ∨ c > 126
    · rw [if_pos hbad, if_neg]
      intro h
      have := h c (List.mem_cons_self _ _)
      omega
    · rw [if_neg hbad, ih]
      have hok : 32 ≤ c ∧ c ≤ 126 := by omega
      simp only [List.mem_cons, forall_eq_or_imp, hok, true_and, List.length_cons]
      split <;> omega

theorem parse_message_eq (msg : List Nat) :
    parse_message msg
      = if ∀ b ∈ content msg, 32 ≤ b ∧ b ≤ 126 then (content msg).length else 0 := by
  unfold parse_message
  rw [parse_message_loop_eq]
  simp

theorem take_content_length (msg : List Nat) : msg.take (content msg).length = content msg := by
  induction msg with
  | nil => simp [content]
  | cons c msg ih =>
    unfold content at ih ⊢
    rw [List.takeWhile_cons]
    split
    · simp [ih]
    · simp

theorem content_length_le (msg : List Nat) : (content msg).length ≤ msg.length := by
  have := congrArg List.length (take_content_length msg)
  simp at this
  exact this

theorem parse_message_le (msg : List Nat) : parse_message msg ≤ (content msg).length := by
  rw [parse_message_eq]
  split <;> omega

theorem take_parse_message (msg : List Nat) (L : Nat) (hL : L ≤ parse_message msg) :
    msg.take L = (content msg).take L := by
  have h := parse_message_le msg
  have h1 : (msg.take (content msg).length).take L = msg.take L := by
    rw [List.take_take, Nat.min_eq_left (by omega)]
  rw [← h1, take_content_length]

/-! ## `add_message` in closed form -/

theorem add_message_zero (MD5 : List Nat → Digest) (fuel : Nat) (a : archive) (msg : List Nat)
    (h0 : parse_message msg % 65536 = 0) : add_message MD5 fuel a msg = some (0, a) := by
  simp [add_message, h0]

theorem add_message_mono (MD5 : List Nat → Digest) (fuel : Nat) (a : archive)
    (msg : List Nat) (r : Nat × archive) (h : add_message MD5 fuel a msg = some r) :
    add_message MD5 (fuel + 1) a msg = some r := by
  unfold add_message at h ⊢
  simp only at h ⊢
  split
  · rename_i h0; rw [if_pos h0] at h; exact h
  · rename_i h0
    rw [if_neg h0] at h
    split at h
    · exact absurd h (by simp)
    · rename_i str4 hm
      rw [mine_mono MD5 _ _ _ fuel _ _ str4 hm]
      exact h

theorem add_message_cases (MD5 : List Nat → Digest) (fuel : Nat) (a a1 : archive)
    (msg : List Nat) (r : Nat) (h : add_message MD5 fuel a msg = some (r, a1)) :
    (r = 0 ∧ a1 = a ∧ parse_message msg % 65536 = 0)
      ∨ (r = 1 ∧ parse_message msg % 65536 ≠ 0) := by
  by_cases h0 : parse_message msg % 65536 = 0
  · rw [add_message_zero MD5 fuel a msg h0] at h
    simp at h
    exact Or.inl ⟨h.1.symm, h.2.symm, h0⟩
  · right
    refine ⟨?_, h0⟩
    simp only [add_message, if_neg h0] at h
    split at h
    · simp at h
    · simp at h
      exact h.1.symm

theorem add_message_one (MD5 : List Nat → Digest) (fuel : Nat) (a a1 : archive)
    (msg : List Nat) (hlen : a.len = a.str.length) (h5 : 5 ≤ a.len) (hoff : a.offset ≤ a.len)
    (h : add_message MD5 fuel a msg = some (1, a1)) :
    parse_message msg % 65536 ≠ 0 ∧
    ∃ k : Nat, ∃ d : List Nat,
      d = (MD5 (a.str.drop a.offset ++ (parse_message msg % 65536 % 256
            :: (msg.take (parse_message msg % 65536) ++ LE128 k)))).val ∧
      d.getD 0 0 = 0 ∧ d.getD 1 0 = 0 ∧
      a1.str = a.str.take 1 ++ (BE32 (readBE32 a.str 1 + 1) ++ (a.str.drop 5
        ++ (parse_message msg % 65536 % 256
            :: (msg.take (parse_message msg % 65536) ++ (LE128 k ++ d))))) ∧
      a1.len = a.len + (parse_message msg % 65536 + 33) ∧
      a1.size = a.size + 1 ∧
      a1.offset = (if a.size + 1 ≥ 20 then
          a.offset + ((a.str ++ [parse_message msg % 65536 % 256]).getD a.offset 0 + 33)
        else a.offset) := by
  have h0 : parse_message msg % 65536 ≠ 0 := by
    rcases add_message_cases MD5 fuel a a1 msg 1 h with h1 | h1
    · exact absurd h1.1 (by decide)
    · exact h1.2
  refine ⟨h0, ?_⟩
  generalize hL : parse_message msg % 65536 = L at *
  have hLle : L ≤ parse_message msg := by rw [← hL]; exact Nat.mod_le _ _
  have hc : (msg.take L).length = L := by
    rw [List.length_take]
    have := parse_message_le msg
    have := content_length_le msg
    omega
  generalize hcdef : msg.take L = c at *
  have e1 : realloc a.str (a.len + L + 33)
      = a.str ++ (List.replicate 1 0 ++ (List.replicate L 0
          ++ (List.replicate 16 0 ++ List.replicate 16 0))) := by
    have : a.len + L + 33 = a.str.length + (1 + (L + (16 + 16))) := by omega
    rw [this, realloc_grow]
    simp only [List.replicate_add]
  have e2 : memcpy (realloc a.str (a.len + L + 33)) a.len [L % 256]
      = a.str ++ ([L % 256] ++ (List.replicate L 0
          ++ (List.replicate 16 0 ++ List.replicate 16 0))) := by
    rw [e1]
    exact memcpy_mid _ _ _ _ _ hlen (by simp)
  have e3 : memcpy (memcpy (realloc a.str (a.len + L + 33)) a.len [L % 256]) (a.len + 1) c
      = (a.str ++ (L % 256 :: c)) ++ (List.replicate 16 0 ++ List.replicate 16 0) := by
    rw [e2]
    have := memcpy_mid (a.str ++ [L % 256]) (List.replicate L 0)
      (List.replicate 16 0 ++ List.replicate 16 0) c (a.len + 1) (by simp [hlen]) (by simp [hc])
    simpa [List.append_assoc] using this
  simp only [add_message, hL, if_neg h0, hcdef, e3] at h
  cases hm : mine MD5 a.offset (a.len - a.offset + L + 17) (a.len + L + 1) fuel
      ((a.str ++ (L % 256 :: c)) ++ (List.replicate 16 0 ++ List.replicate 16 0)) 0 with
  | none => rw [hm] at h; simp at h
  | some str4 =>
    rw [hm] at h
    simp only [Option.some.injEq, Prod.mk.injEq, true_and] at h
    obtain ⟨k, hr, hz0, hz1⟩ := mine_some MD5 a.offset (a.len - a.offset + L + 17)
      (a.len + L + 1) (a.str ++ (L % 256 :: c)) (by simp [hc, hlen]; omega) (by omega)
      fuel _ _ 0 str4 (by simp) (by simp) hm
    have hw : (((a.str ++ (L % 256 :: c)) ++ LE128 k).drop a.offset).take
        (a.len - a.offset + L + 17) = a.str.drop a.offset ++ (L % 256 :: (c ++ LE128 k)) := by
      rw [List.append_assoc, List.drop_append_of_le_length (by omega)]
      rw [List.take_of_length_le]
      · simp
      · simp [hc, LE128_length]; omega
    rw [hw] at hr hz0 hz1
    refine ⟨k, _, rfl, hz0, hz1, ?_⟩
    subst h
    simp only [true_and]
    have hr1 : str4 = a.str ++ (L % 256 :: (c ++ (LE128 k
        ++ (MD5 (a.str.drop a.offset ++ (L % 256 :: (c ++ LE128 k)))).val))) := by
      rw [hr]; simp
    refine ⟨?_, ?_⟩
    · rw [hr1, readBE32_append _ _ (by omega), memcpy_header _ _ _ (by omega) (BE32_length _)]
    · rw [hr1, getD_append_cons _ _ _ _ (by omega)]

/-! ## Records and framing -/

theorem records_bytes_append (xs ys : List record) :
    records_bytes (xs ++ ys) = records_bytes xs ++ records_bytes ys := by
  induction xs with
  | nil => rfl
  | cons x xs ih => simp [records_bytes, ih]

theorem record_bytes_length (r : record) (h : r.wf) :
    r.bytes.length = r.content.length + 33 := by
  obtain ⟨_, hn, hd⟩ := h
  simp [record.bytes, record.upto_nonce, hn, hd]

theorem upto_nonce_length (r : record) (h : r.wf) :
    r.upto_nonce.length = r.content.length + 17 := by
  obtain ⟨_, hn, hd⟩ := h
  simp [record.upto_nonce, hn]

theorem records_bytes_take_drop (rs : List record) (t : Nat) :
    records_bytes rs = records_bytes (rs.take t) ++ records_bytes (rs.drop t) := by
  rw [← records_bytes_append, List.take_append_drop]

/-! ## `is_valid` decides the hash-domain invariant -/

theorem is_valid_loop_iff (MD5 : List Nat → Digest) (hdr : List Nat) (hhdr : hdr.length = 5) :
    ∀ (post pre : List record) (off : Nat), (∀ r ∈ pre, r.wf) → (∀ r ∈ post, r.wf) →
      ((is_valid_loop MD5 (hdr ++ records_bytes (pre ++ post)) post.length (pre.length + 1)
          (5 + (records_bytes (pre.take (pre.length - 20))).length)
          (5 + (records_bytes pre).length)
          (records_bytes (pre.drop (pre.length - 20))).length off).1 = 1
        ↔ chain_ok MD5 pre post) := by
  intro post
  induction post with
  | nil => intro pre off _ _; simp [is_valid_loop, chain_ok]
  | cons r post ih =>
    intro pre off hpre hpost
    have hrwf : r.wf := hpost r (List.mem_cons_self _ _)
    have hr33 := record_bytes_length r hrwf
    have hr17 := upto_nonce_length r hrwf
    obtain ⟨hrc, hrn, hrd⟩ := hrwf
    have hpre1 : ∀ x ∈ pre ++ [r], x.wf := by
      intro x hx
      rcases List.mem_append.1 hx with hx | hx
      · exact hpre x hx
      · rw [List.mem_singleton.1 hx]; exact ⟨hrc, hrn, hrd⟩
    have hpost1 : ∀ x ∈ post, x.wf := fun x hx => hpost x (List.mem_cons_of_mem _ hx)
    have IH := ih (pre ++ [r])
    -- the buffer, split at the places the loop reads
    have hs1 : hdr ++ records_bytes (pre ++ r :: post)
        = (hdr ++ records_bytes pre) ++ (r.content.length
            :: (r.content ++ r.nonce ++ r.digest ++ records_bytes post)) := by
      simp [records_bytes_append, records_bytes, record.bytes, record.upto_nonce]
    have hs2 : hdr ++ records_bytes (pre ++ r :: post)
        = (hdr ++ records_bytes pre ++ r.upto_nonce) ++ (r.digest ++ records_bytes post) := by
      simp [records_bytes_append, records_bytes, record.bytes]
    have hs3 : hdr ++ records_bytes (pre ++ r :: post)
        = (hdr ++ records_bytes (pre.take (pre.length - 19)))
          ++ ((records_bytes (pre.drop (pre.length - 19)) ++ r.upto_nonce)
            ++ (r.digest ++ records_bytes post)) := by
      rw [records_bytes_append, records_bytes_take_drop pre (pre.length - 19)]
      simp [records_bytes, record.bytes]
    have F1 : (hdr ++ records_bytes (pre ++ r :: post)).getD (5 + (records_bytes pre).length) 0
        = r.content.length := by
      rw [hs1]; exact getD_mid _ _ _ _ (by simp [hhdr])
    have F2 : read16 (hdr ++ records_bytes (pre ++ r :: post))
        (5 + (records_bytes pre).length + (r.content.length + 17)) = 0
        ↔ r.digest.getD 0 0 = 0 ∧ r.digest.getD 1 0 = 0 := by
      rw [hs2]
      exact read16_eq_zero r.digest _ _ _ (by simp [hhdr, hr17]; omega) (by omega)
    have F3 : ((hdr ++ records_bytes (pre ++ r :: post)).drop
        (5 + (records_bytes pre).length + (r.content.length + 17))).take 16 = r.digest := by
      rw [hs2]
      exact drop_take_mid _ _ _ _ _ (by simp [hhdr, hr17]; omega) hrd.symm
    have F5 : ((hdr ++ records_bytes (pre ++ r :: post)).drop
        (5 + (records_bytes (pre.take (pre.length - 19))).length)).take
          ((records_bytes (pre.drop (pre.length - 19))).length + (r.content.length + 17))
        = records_bytes (pre.drop (pre.length - 19)) ++ r.upto_nonce := by
      rw [hs3]
      exact drop_take_mid _ _ _ _ _ (by simp [hhdr]) (by simp [hr17])
    -- the arguments of the next round
    have G1 : (pre ++ [r]) ++ post = pre ++ r :: post := by simp
    have G3 : (pre ++ [r]).take ((pre ++ [r]).length - 20) = pre.take (pre.length - 19) := by
      rw [List.length_append, List.length_singleton, List.take_append_of_le_length (by omega)]
      congr 1
    have G5 : (pre ++ [r]).drop ((pre ++ [r]).length - 20)
        = pre.drop (pre.length - 19) ++ [r] := by
      rw [List.length_append, List.length_singleton, List.drop_append_of_le_length (by omega)]
      congr 2
    have G4 : (records_bytes (pre ++ [r])).length
        = (records_bytes pre).length + (r.content.length + 17) + 16 := by
      simp [records_bytes_append, records_bytes, hr33]; omega
    have G6 : (records_bytes (pre.drop (pre.length - 19) ++ [r])).length
        = (records_bytes (pre.drop (pre.length - 19))).length + (r.content.length + 17) + 16 := by
      simp [records_bytes_append, records_bytes, hr33]; omega
    have G7 : 5 + ((records_bytes pre).length + (r.content.length + 17) + 16)
        = 5 + (records_bytes pre).length + (r.content.length + 17) + 16 := by omega
    rw [G1, G3, G5, G4, G6, G7, List.length_append, List.length_singleton] at IH
    -- one round of the loop
    rw [List.length_cons, is_valid_loop]
    simp only [F1]
    by_cases hz : r.digest.getD 0 0 = 0 ∧ r.digest.getD 1 0 = 0
    · have hz1 := F2.2 hz
      simp only [hz1, ne_eq, not_true_eq_false, if_false]
      have hwin : (if pre.length + 1 > 20 then
            5 + (records_bytes (pre.take (pre.length - 20))).length
              + ((hdr ++ records_bytes (pre ++ r :: post)).getD
                  (5 + (records_bytes (pre.take (pre.length - 20))).length) 0 + 33)
          else 5 + (records_bytes (pre.take (pre.length - 20))).length)
            = 5 + (records_bytes (pre.take (pre.length - 19))).length
          ∧ (if pre.length + 1 > 20 then
            (records_bytes (pre.drop (pre.length - 20))).length + (r.content.length + 17)
              - ((hdr ++ records_bytes (pre ++ r :: post)).getD
                  (5 + (records_bytes (pre.take (pre.length - 20))).length) 0 + 33)
          else (records_bytes (pre.drop (pre.length - 20))).length + (r.content.length + 17))
            = (records_bytes (pre.drop (pre.length - 19))).length + (r.content.length + 17) := by
        by_cases hge : 20 ≤ pre.length
        · have hlt : pre.length - 20 < pre.length := by omega
          have e19 : pre.length - 20 + 1 = pre.length - 19 := by omega
          have hb : pre.drop (pre.length - 20)
              = pre[pre.length - 20] :: pre.drop (pre.length - 19) := by
            rw [← e19]; exact List.drop_eq_getElem_cons hlt
          have hbwf : (pre[pre.length - 20]).wf := hpre _ (List.getElem_mem _)
          generalize pre[pre.length - 20] = b at hb hbwf
          have hb33 := record_bytes_length b hbwf
          have htake : pre.take (pre.length - 19) = pre.take (pre.length - 20) ++ [b] := by
            rw [← e19, List.take_add, hb]; simp
          have hs4 : hdr ++ records_bytes (pre ++ r :: post)
              = (hdr ++ records_bytes (pre.take (pre.length - 20))) ++ (b.content.length
                  :: (b.content ++ b.nonce ++ b.digest ++ records_bytes (pre.drop (pre.length - 19))
                    ++ records_bytes (r :: post))) := by
            rw [records_bytes_append, records_bytes_take_drop pre (pre.length - 20), hb]
            simp [records_bytes, record.bytes, record.upto_nonce]
          have F4 : (hdr ++ records_bytes (pre ++ r :: post)).getD
              (5 + (records_bytes (pre.take (pre.length - 20))).length) 0 = b.content.length := by
            rw [hs4]; exact getD_mid _ _ _ _ (by simp [hhdr])
          have hgt : pre.length + 1 > 20 := by omega
          rw [if_pos hgt, if_pos hgt, F4, htake, hb]
          simp only [records_bytes_append, records_bytes, List.length_append, hb33,
            List.append_nil]
          omega
        · have e1 : pre.length - 20 = 0 := by omega
          have e2 : pre.length - 19 = 0 := by omega
          have hgt : ¬ pre.length + 1 > 20 := by omega
          rw [if_neg hgt, if_neg hgt, e1, e2]
          exact ⟨rfl, rfl⟩
      rw [hwin.1, hwin.2, F5, F3]
      by_cases hd : (MD5 (records_bytes (pre.drop (pre.length - 19)) ++ r.upto_nonce)).val
          = r.digest
      · simp only [hd, not_true_eq_false, if_false]
        rw [IH _ hpre1 hpost1]
        simp only [chain_ok]
        exact ⟨fun h => ⟨⟨hz.1, hz.2, hd⟩, h⟩, fun h => h.2⟩
      · simp only [hd, not_false_eq_true, if_true]
        simp only [chain_ok]
        constructor
        · intro h; exact absurd h (by decide)
        · intro h; exact absurd h.1.2.2 hd
    · have hz1 : ¬ read16 (hdr ++ records_bytes (pre ++ r :: post))
          (5 + (records_bytes pre).length + (r.content.length + 17)) = 0 := fun h => hz (F2.1 h)
      simp only [ne_eq, hz1, not_false_eq_true, if_true]
      simp only [chain_ok]
      constructor
      · intro h; exact absurd h (by decide)
      · intro h; exact absurd ⟨h.1.1, h.1.2.1⟩ hz

theorem hash_domain_at (pre post : List record) (r : record) (hd : r.digest.length = 16) :
    hash_domain (pre ++ r :: post) (pre.length + 1)
      = records_bytes (pre.drop (pre.length - 19)) ++ r.upto_nonce := by
  have e1 : (pre ++ r :: post).take (pre.length + 1) = pre ++ [r] := by
    have : pre ++ r :: post = (pre ++ [r]) ++ post := by simp
    rw [this, List.take_append_of_le_length (by simp)]
    exact List.take_of_length_le (by simp)
  have e2 : max 1 (pre.length + 1 - 19) - 1 = pre.length - 19 := by omega
  unfold hash_domain
  simp only [e1, e2]
  rw [List.drop_append_of_le_length (by omega), records_bytes_append]
  simp only [records_bytes, record.bytes, List.append_nil]
  rw [← List.append_assoc]
  rw [List.take_append_of_le_length (by simp [hd]; omega)]
  exact List.take_of_length_le (by simp [hd]; omega)

theorem chain_ok_iff (MD5 : List Nat → Digest) :
    ∀ (post pre : List record), (∀ r ∈ post, r.wf) →
      (chain_ok MD5 pre post ↔
        ∀ i, pre.length < i → i ≤ pre.length + post.length →
          ∃ r, (pre ++ post)[i - 1]? = some r ∧ r.digest.getD 0 0 = 0 ∧ r.digest.getD 1 0 = 0
            ∧ r.digest = (MD5 (hash_domain (pre ++ post) i)).val) := by
  intro post
  induction post with
  | nil =>
    intro pre _
    simp only [chain_ok, List.length_nil, Nat.add_zero, true_iff]
    intro i h1 h2
    omega
  | cons r post ih =>
    intro pre hwf
    have hr : r.wf := hwf r (List.mem_cons_self _ _)
    have hpost : ∀ x ∈ post, x.wf := fun x hx => hwf x (List.mem_cons_of_mem _ hx)
    have e : (pre ++ [r]) ++ post = pre ++ r :: post := by simp
    have IH := ih (pre ++ [r]) hpost
    rw [e, List.length_append, List.length_singleton] at IH
    have hget : (pre ++ r :: post)[pre.length + 1 - 1]? = some r := by
      rw [Nat.add_sub_cancel, List.getElem?_append_right (le_refl _)]
      simp
    simp only [chain_ok, IH, List.length_cons]
    constructor
    · rintro ⟨⟨h0, h1, hd⟩, hrest⟩ i hi1 hi2
      by_cases hi : i = pre.length + 1
      · subst hi
        exact ⟨r, hget, h0, h1, by rw [hash_domain_at _ _ _ hr.2.2, hd]⟩
      · exact hrest i (by omega) (by omega)
    · intro h
      refine ⟨?_, fun i hi1 hi2 => h i (by omega) (by omega)⟩
      obtain ⟨r1, hr1, h0, h1, hd⟩ := h (pre.length + 1) (by omega) (by omega)
      rw [hget] at hr1
      cases hr1
      exact ⟨h0, h1, by rw [hd, hash_domain_at _ _ _ hr.2.2]⟩

/-- **C3.** For a well-framed archive (a 5-byte header followed by exactly
`size` well-formed records), `is_valid` returns 1 if and only if every record
`i` in `1..size` has a stored digest whose first two bytes are zero and which
equals MD5 of the bytes from the start of record `max(1, i-19)` up to and
including the nonce of record `i` (header bytes never included). -/
theorem is_valid_iff_hash_domain (MD5 : List Nat → Digest) (a : archive) (hdr : List Nat)
    (rs : List record) (hhdr : hdr.length = 5) (hstr : a.str = hdr ++ records_bytes rs)
    (hsize : a.size = rs.length) (hwf : ∀ r ∈ rs, r.wf) :
    (is_valid MD5 a).1 = 1 ↔
      ∀ i, 1 ≤ i → i ≤ a.size →
        ∃ r, rs[i - 1]? = some r ∧ r.digest.getD 0 0 = 0 ∧ r.digest.getD 1 0 = 0
          ∧ r.digest = (MD5 (hash_domain rs i)).val := by
  have h := is_valid_loop_iff MD5 hdr hhdr rs [] a.offset (by simp) hwf
  have h2 := chain_ok_iff MD5 rs [] hwf
  simp only [List.nil_append, List.length_nil, Nat.zero_sub, List.take_nil, List.drop_nil,
    records_bytes, Nat.add_zero, Nat.zero_add] at h h2
  unfold is_valid
  simp only [hstr, hsize]
  rw [h, h2]
  constructor
  · intro H i h1 h2; exact H i (by omega) h2
  · intro H i h1 h2; exact H i (by omega) h2

/-! ## The invariant of locally built archives -/

theorem chain_ok_append (MD5 : List Nat → Digest) :
    ∀ (xs pre ys : List record),
      chain_ok MD5 pre (xs ++ ys) ↔ chain_ok MD5 pre xs ∧ chain_ok MD5 (pre ++ xs) ys := by
  intro xs
  induction xs with
  | nil => intro pre ys; simp [chain_ok]
  | cons x xs ih =>
    intro pre ys
    have e : pre ++ [x] ++ xs = pre ++ x :: xs := by simp
    show (_ ∧ chain_ok MD5 (pre ++ [x]) (xs ++ ys))
      ↔ (_ ∧ chain_ok MD5 (pre ++ [x]) xs) ∧ chain_ok MD5 (pre ++ x :: xs) ys
    rw [ih, e]
    tauto

theorem parse_message_pos (msg : List Nat) (h : parse_message msg ≠ 0) :
    (∀ b ∈ content msg, 32 ≤ b ∧ b ≤ 126) ∧ parse_message msg = (content msg).length := by
  rw [parse_message_eq] at h ⊢
  split at h
  · rename_i hv
    exact ⟨hv, by rw [if_pos hv]⟩
  · exact absurd rfl h

theorem readBE32_BE32 (t n : Nat) (X : List Nat) :
    readBE32 (t :: (BE32 n ++ X)) 1 = n % 2 ^ 32 := by
  simp [readBE32, BE32]
  omega

theorem BE32_succ_mod (n : Nat) : BE32 (n % 2 ^ 32 + 1) = BE32 (n + 1) := by
  simp only [BE32]
  refine congrArg₂ _ (by omega) (congrArg₂ _ (by omega) (congrArg₂ _ (by omega)
    (congrArg₂ _ (by omega) rfl)))

theorem records_bytes_length_take_le (rs : List record) (t : Nat) :
    (records_bytes (rs.take t)).length ≤ (records_bytes rs).length := by
  rw [records_bytes_take_drop rs t, List.length_append]
  omega

theorem archive_inv_bounds (MD5 : List Nat → Digest) (a : archive) (rs : List record)
    (hinv : archive_inv MD5 a rs) :
    a.len = 5 + (records_bytes rs).length ∧ 5 ≤ a.len ∧ a.offset ≤ a.len := by
  have h1 : a.len = 5 + (records_bytes rs).length := by
    rw [hinv.len_eq, hinv.str_eq]
    simp [BE32_length]
    omega
  have := records_bytes_length_take_le rs (rs.length - 19)
  refine ⟨h1, by omega, ?_⟩
  rw [hinv.offset_eq]
  omega

theorem add_message_inv (MD5 : List Nat → Digest) (fuel : Nat) (a a1 : archive)
    (rs : List record) (msg : List Nat) (hinv : archive_inv MD5 a rs)
    (hL : parse_message msg ≤ 255) (h : add_message MD5 fuel a msg = some (1, a1)) :
    ∃ r : record, archive_inv MD5 a1 (rs ++ [r]) ∧ r.content = content msg
      ∧ 1 ≤ r.content.length ∧ (∀ b ∈ r.content, 32 ≤ b ∧ b ≤ 126)
      ∧ parse_message msg = r.content.length := by
  obtain ⟨hlen5, h5, hoff⟩ := archive_inv_bounds MD5 a rs hinv
  obtain ⟨hL0, k, d, hd, hz0, hz1, hstr, hlen1, hsize1, hoff1⟩ :=
    add_message_one MD5 fuel a a1 msg hinv.len_eq h5 hoff h
  have hmod : parse_message msg % 65536 = parse_message msg := Nat.mod_eq_of_lt (by omega)
  rw [hmod] at hL0 hd hstr hlen1 hoff1
  obtain ⟨hvalid, hpl⟩ := parse_message_pos msg hL0
  have hmod2 : parse_message msg % 256 = (content msg).length := by
    rw [← hpl]; exact Nat.mod_eq_of_lt (by omega)
  have hc : msg.take (parse_message msg) = content msg := by
    rw [take_parse_message msg _ le_rfl, hpl, List.take_length]
  simp only [hmod2, hc] at hd hstr hoff1
  have hdlen : d.length = 16 := by rw [hd]; exact (MD5 _).property
  have hrwf : (record.mk (content msg) (LE128 k) d).wf :=
    ⟨by show (content msg).length ≤ 255; omega, LE128_length k, hdlen⟩
  have hwf1 : ∀ x ∈ rs ++ [record.mk (content msg) (LE128 k) d], x.wf := by
    intro x hx
    rcases List.mem_append.1 hx with hx | hx
    · exact hinv.wf x hx
    · rw [List.mem_singleton.1 hx]; exact hrwf
  have hdrop : a.str.drop a.offset = records_bytes (rs.drop (rs.length - 19)) := by
    rw [hinv.str_eq, hinv.offset_eq]
    have : (4 :: (BE32 rs.length ++ records_bytes rs))
        = (4 :: (BE32 rs.length ++ records_bytes (rs.take (rs.length - 19))))
          ++ records_bytes (rs.drop (rs.length - 19)) := by
      conv_lhs => rw [records_bytes_take_drop rs (rs.length - 19)]
      simp
    rw [this]
    have hl : 5 + (records_bytes (rs.take (rs.length - 19))).length
        = (4 :: (BE32 rs.length ++ records_bytes (rs.take (rs.length - 19)))).length := by
      simp [BE32_length]; omega
    rw [hl, List.drop_left]
  refine ⟨⟨content msg, LE128 k, d⟩, ⟨?_, ?_, ?_, ?_, hwf1, ?_⟩, rfl, ?_, hvalid, hpl⟩
  · -- bytes
    rw [hstr, hinv.str_eq, readBE32_BE32, BE32_succ_mod]
    simp [records_bytes_append, records_bytes, record.bytes, record.upto_nonce, BE32]
  · -- len
    rw [hlen1, hlen5, hstr, hinv.str_eq]
    simp [BE32_length, LE128_length, hdlen, hpl]
    omega
  · rw [hsize1, hinv.size_eq]; simp
  · -- offset
    rw [hoff1, hinv.size_eq, List.length_append, List.length_singleton]
    by_cases hge : rs.length + 1 ≥ 20
    · have hlt : rs.length - 19 < rs.length := by omega
      have e18 : rs.length - 19 + 1 = rs.length + 1 - 19 := by omega
      have hb : rs.drop (rs.length - 19)
          = rs[rs.length - 19] :: rs.drop (rs.length + 1 - 19) := by
        rw [← e18]; exact List.drop_eq_getElem_cons hlt
      have hbwf : (rs[rs.length - 19]).wf := hinv.wf _ (List.getElem_mem _)
      generalize rs[rs.length - 19] = b at hb hbwf
      have hb33 := record_bytes_length b hbwf
      have htake : (rs ++ [record.mk (content msg) (LE128 k) d]).take (rs.length + 1 - 19)
          = rs.take (rs.length - 19) ++ [b] := by
        rw [List.take_append_of_le_length (by omega), ← e18, List.take_add, hb]; simp
      have hs : a.str ++ [(content msg).length]
          = (4 :: (BE32 rs.length ++ records_bytes (rs.take (rs.length - 19))))
            ++ (b.content.length :: (b.content ++ b.nonce ++ b.digest
              ++ records_bytes (rs.drop (rs.length + 1 - 19)) ++ [(content msg).length])) := by
        rw [hinv.str_eq, records_bytes_take_drop rs (rs.length - 19), hb]
        simp [records_bytes, record.bytes, record.upto_nonce]
      have hg : (a.str ++ [(content msg).length]).getD a.offset 0 = b.content.length := by
        rw [hs, hinv.offset_eq]
        exact getD_mid _ _ _ _ (by simp [BE32_length]; omega)
      rw [if_pos hge, hg, htake, hinv.offset_eq, records_bytes_append]
      simp only [records_bytes, List.length_append, hb33, List.append_nil]
      omega
    · have e1 : rs.length - 19 = 0 := by omega
      have e2 : rs.length + 1 - 19 = 0 := by omega
      rw [if_neg hge, hinv.offset_eq, e1, e2]
      simp
  · -- chain
    rw [chain_ok_append]
    refine ⟨hinv.chain, ?_⟩
    simp only [chain_ok, List.nil_append, and_true]
    refine ⟨hz0, hz1, ?_⟩
    rw [hd, hdrop]
    rfl
  · show 1 ≤ (content msg).length
    omega

theorem init_archive_inv (MD5 : List Nat → Digest) : archive_inv MD5 init_archive [] :=
  ⟨by simp [init_archive, BE32, records_bytes], rfl, rfl, rfl, by simp, by simp [chain_ok]⟩

theorem add_messages_cons (MD5 : List Nat → Digest) (fuel : Nat) (a a2 : archive)
    (m : List Nat) (ms : List (List Nat)) :
    add_messages MD5 fuel a (m :: ms) = some a2 ↔
      ∃ a1, add_message MD5 fuel a m = some (1, a1) ∧ add_messages MD5 fuel a1 ms = some a2 := by
  constructor
  · intro h
    unfold add_messages at h
    split at h
    · rename_i a1 h1
      exact ⟨a1, h1, h⟩
    · simp at h
  · rintro ⟨a1, h1, h2⟩
    unfold add_messages
    rw [h1]
    exact h2

theorem add_messages_inv (MD5 : List Nat → Digest) (fuel : Nat) :
    ∀ (msgs : List (List Nat)) (a a2 : archive) (rs : List record),
      archive_inv MD5 a rs → (∀ m ∈ msgs, (content m).length ≤ 255) →
      add_messages MD5 fuel a msgs = some a2 →
      ∃ rs2, archive_inv MD5 a2 (rs ++ rs2)
        ∧ rs2.map (fun r => r.content) = msgs.map content
        ∧ rs2.map (fun r => r.content.length) = msgs.map (fun m => parse_message m % 65536)
        ∧ ∀ r ∈ rs2, 1 ≤ r.content.length ∧ r.content.length ≤ 255
            ∧ ∀ b ∈ r.content, 32 ≤ b ∧ b ≤ 126 := by
  intro msgs
  induction msgs with
  | nil =>
    intro a a2 rs hinv _ h
    simp only [add_messages, Option.some.injEq] at h
    subst h
    exact ⟨[], by simpa using hinv, rfl, rfl, by simp⟩
  | cons m ms ih =>
    intro a a2 rs hinv hms h
    obtain ⟨a1, h1, h2⟩ := (add_messages_cons MD5 fuel a a2 m ms).1 h
    have hm : (content m).length ≤ 255 := hms m (List.mem_cons_self _ _)
    have hpm : parse_message m ≤ 255 := le_trans (parse_message_le m) hm
    obtain ⟨r, hinv1, hrc, hr1, hrp, hrl⟩ := add_message_inv MD5 fuel a a1 rs m hinv hpm h1
    obtain ⟨rs2, hinv2, hc2, hl2, hp2⟩ :=
      ih a1 a2 (rs ++ [r]) hinv1 (fun x hx => hms x (List.mem_cons_of_mem _ hx)) h2
    refine ⟨r :: rs2, by simpa using hinv2, by simp [hrc, hc2], ?_, ?_⟩
    · simp only [List.map_cons, hl2]
      rw [Nat.mod_eq_of_lt (by omega), hrl]
    · intro x hx
      rcases List.mem_cons.1 hx with hx | hx
      · subst hx; exact ⟨hr1, by omega, hrp⟩
      · exact hp2 x hx

theorem records_bytes_length_sum (rs : List record) (hwf : ∀ r ∈ rs, r.wf) :
    (records_bytes rs).length = (rs.map (fun r => r.content.length + 33)).sum := by
  induction rs with
  | nil => rfl
  | cons r rs ih =>
    have hr := record_bytes_length r (hwf r (List.mem_cons_self _ _))
    simp only [records_bytes, List.length_append, hr, List.map_cons, List.sum_cons]
    rw [ih (fun x hx => hwf x (List.mem_cons_of_mem _ hx))]

theorem record_start_eq (msgs : List (List Nat)) (rs : List record) (hwf : ∀ r ∈ rs, r.wf)
    (hlen : rs.map (fun r => r.content.length) = msgs.map (fun m => parse_message m % 65536))
    (j : Nat) :
    record_start msgs j = 5 + (records_bytes (rs.take (j - 1))).length := by
  unfold record_start
  rw [records_bytes_length_sum _ (fun r hr => hwf r (List.mem_of_mem_take hr))]
  have h1 : (rs.take (j - 1)).map (fun r => r.content.length + 33)
      = ((rs.map (fun r => r.content.length)).take (j - 1)).map (fun x => x + 33) := by
    simp only [List.map_take, List.map_map]; rfl
  have h2 : (msgs.take (j - 1)).map (fun m => parse_message m % 65536 + 33)
      = ((msgs.map (fun m => parse_message m % 65536)).take (j - 1)).map (fun x => x + 33) := by
    simp only [List.map_take, List.map_map]; rfl
  rw [h1, h2, hlen]

theorem recv_records_cons (cap : Nat) (r : record) (rs : List record) (rest buf : List Nat)
    (len : Nat) (hr : r.wf) :
    recv_records cap (rs.length + 1) (records_bytes (r :: rs) ++ rest) buf len
      = if len + (r.content.length + 33) ≤ cap then
          recv_records cap rs.length (records_bytes rs ++ rest) (buf ++ r.bytes)
            (len + (r.content.length + 33))
        else none := by
  obtain ⟨-, hn, hd⟩ := hr
  have hs : records_bytes (r :: rs) ++ rest
      = r.content.length :: (r.content ++ ((r.nonce ++ r.digest)
          ++ (records_bytes rs ++ rest))) := by
    simp [records_bytes, record.bytes, record.upto_nonce]
  have h1 : ((r.content.length :: (r.content ++ ((r.nonce ++ r.digest)
      ++ (records_bytes rs ++ rest)))).drop 1).take r.content.length = r.content := by
    simp
  have h2 : ((r.content.length :: (r.content ++ ((r.nonce ++ r.digest)
      ++ (records_bytes rs ++ rest)))).drop (1 + r.content.length)).take 32
        = r.nonce ++ r.digest := by
    have := drop_take_mid (r.content.length :: r.content) (r.nonce ++ r.digest)
      (records_bytes rs ++ rest) (1 + r.content.length) 32 (by simp; omega) (by simp [hn, hd])
    simpa using this
  have h3 : (r.content.length :: (r.content ++ ((r.nonce ++ r.digest)
      ++ (records_bytes rs ++ rest)))).drop (1 + r.content.length + 32)
        = records_bytes rs ++ rest := by
    have e : r.content.length :: (r.content ++ ((r.nonce ++ r.digest)
        ++ (records_bytes rs ++ rest)))
          = (r.content.length :: (r.content ++ (r.nonce ++ r.digest)))
            ++ (records_bytes rs ++ rest) := by simp
    have el : 1 + r.content.length + 32
        = (r.content.length :: (r.content ++ (r.nonce ++ r.digest))).length := by
      simp [hn, hd]; omega
    rw [e, el, List.drop_left]
  have hb : buf ++ [r.content.length] ++ r.content ++ (r.nonce ++ r.digest) = buf ++ r.bytes := by
    simp [record.bytes, record.upto_nonce]
  rw [recv_records, hs]
  simp only [List.headD_cons, h1, h2, h3, hb]

theorem recv_records_spec : ∀ (rs : List record) (rest buf : List Nat) (len cap : Nat),
    (∀ r ∈ rs, r.wf) → len + (records_bytes rs).length ≤ cap →
    recv_records cap rs.length (records_bytes rs ++ rest) buf len
      = some (buf ++ records_bytes rs, len + (records_bytes rs).length) := by
  intro rs
  induction rs with
  | nil => intro rest buf len cap _ _; simp [recv_records, records_bytes]
  | cons r rs ih =>
    intro rest buf len cap hwf hcap
    have hr : r.wf := hwf r (List.mem_cons_self _ _)
    have hr33 := record_bytes_length r hr
    simp only [records_bytes, List.length_append, hr33] at hcap
    rw [List.length_cons, recv_records_cons cap r rs rest buf len hr, if_pos (by omega),
      ih rest _ _ cap (fun x hx => hwf x (List.mem_cons_of_mem _ hx)) (by omega)]
    simp only [records_bytes, List.length_append, hr33, List.append_assoc, Option.some.injEq,
      Prod.mk.injEq, true_and]
    omega

theorem recv_records_overflow : ∀ (rs : List record) (rest buf : List Nat) (len cap : Nat),
    (∀ r ∈ rs, r.wf) → len ≤ cap → cap < len + (records_bytes rs).length →
    recv_records cap rs.length (records_bytes rs ++ rest) buf len = none := by
  intro rs
  induction rs with
  | nil =>
    intro rest buf len cap _ h1 h
    simp only [records_bytes, List.length_nil, Nat.add_zero] at h
    omega
  | cons r rs ih =>
    intro rest buf len cap hwf _ hcap
    have hr : r.wf := hwf r (List.mem_cons_self _ _)
    have hr33 := record_bytes_length r hr
    simp only [records_bytes, List.length_append, hr33] at hcap
    rw [List.length_cons, recv_records_cons cap r rs rest buf len hr]
    split
    · rename_i hfit
      exact ih rest _ _ cap (fun x hx => hwf x (List.mem_cons_of_mem _ hx)) hfit (by omega)
    · rfl

theorem readBE32_BE32_zero (n : Nat) (X : List Nat) :
    readBE32 (BE32 n ++ X) 0 = n % 2 ^ 32 := by
  simp [readBE32, BE32]
  omega

theorem records_bytes_length_bounds (rs : List record) (hwf : ∀ r ∈ rs, r.wf) :
    33 * rs.length ≤ (records_bytes rs).length
    ∧ (records_bytes rs).length ≤ 288 * rs.length := by
  induction rs with
  | nil => exact ⟨Nat.le_refl _, Nat.le_refl _⟩
  | cons r rs ih =>
    have hr := hwf r (List.mem_cons_self _ _)
    have hr33 := record_bytes_length r hr
    have := ih (fun x hx => hwf x (List.mem_cons_of_mem _ hx))
    have hc := hr.1
    simp only [records_bytes, List.length_append, hr33, List.length_cons]
    omega

theorem recv_capacity_eq (n : Nat) (h : 5 + n * 289 < 2 ^ 32) : recv_capacity n = 5 + n * 289 := by
  unfold recv_capacity
  rw [Nat.mod_eq_of_lt (by omega : n * 289 < 2 ^ 32), Nat.mod_eq_of_lt h]

theorem recv_archive_rest (rs : List record) (hcap : 5 + rs.length * 289 < 2 ^ 32)
    (hwf : ∀ r ∈ rs, r.wf) (rest : List Nat) :
    recv_archive (BE32 rs.length ++ (records_bytes rs ++ rest))
      = some { str := 4 :: (BE32 rs.length ++ records_bytes rs), offset := 5, size := rs.length,
               len := 5 + (records_bytes rs).length } := by
  have hn : rs.length < 2 ^ 32 := by omega
  have hb := (records_bytes_length_bounds rs hwf).2
  have hc := recv_capacity_eq rs.length hcap
  have h := recv_records_spec rs rest ([4] ++ BE32 rs.length) 5 (recv_capacity rs.length) hwf
    (by omega)
  unfold recv_archive
  simp only [readBE32_BE32_zero, Nat.mod_eq_of_lt hn]
  have e1 : (BE32 rs.length ++ (records_bytes rs ++ rest)).drop 4 = records_bytes rs ++ rest := by
    rw [← BE32_length rs.length, List.drop_left]
  have e2 : (BE32 rs.length ++ (records_bytes rs ++ rest)).take 4 = BE32 rs.length := by
    rw [← BE32_length rs.length, List.take_left]
  rw [if_pos (by omega), e1, e2, h]
  simp [init_archive]

theorem recv_archive_spec (rs : List record) (hcap : 5 + rs.length * 289 < 2 ^ 32)
    (hwf : ∀ r ∈ rs, r.wf) :
    recv_archive (BE32 rs.length ++ records_bytes rs)
      = some { str := 4 :: (BE32 rs.length ++ records_bytes rs), offset := 5, size := rs.length,
               len := 5 + (records_bytes rs).length } := by
  have h := recv_archive_rest rs hcap hwf []
  rw [List.append_nil] at h
  exact h

theorem recv_archive_overflow (rs : List record) (hn : rs.length < 2 ^ 32)
    (hwf : ∀ r ∈ rs, r.wf) (rest : List Nat)
    (hcap : recv_capacity rs.length < 5 + (records_bytes rs).length) :
    recv_archive (BE32 rs.length ++ (records_bytes rs ++ rest)) = none := by
  unfold recv_archive
  simp only [readBE32_BE32_zero, Nat.mod_eq_of_lt hn]
  have e1 : (BE32 rs.length ++ (records_bytes rs ++ rest)).drop 4 = records_bytes rs ++ rest := by
    rw [← BE32_length rs.length, List.drop_left]
  have e2 : (BE32 rs.length ++ (records_bytes rs ++ rest)).take 4 = BE32 rs.length := by
    rw [← BE32_length rs.length, List.take_left]
  split
  · rename_i h5
    rw [e1, e2, recv_records_overflow rs rest ([4] ++ BE32 rs.length) 5 (recv_capacity rs.length)
      hwf h5 hcap]
    rfl
  · rfl

theorem chain_ok_zero (MD5 : List Nat → Digest) :
    ∀ (post pre : List record), chain_ok MD5 pre post →
      ∀ r ∈ post, r.digest.getD 0 0 = 0 ∧ r.digest.getD 1 0 = 0 := by
  intro post
  induction post with
  | nil => intro pre _ r hr; simp at hr
  | cons x post ih =>
    intro pre h r hr
    simp only [chain_ok] at h
    rcases List.mem_cons.1 hr with hr | hr
    · subst hr; exact ⟨h.1.1, h.1.2.1⟩
    · exact ih _ h.2 r hr

theorem is_valid_zero_digests (MD5 : List Nat → Digest) (a : archive) (hdr : List Nat)
    (rs : List record) (hhdr : hdr.length = 5) (hstr : a.str = hdr ++ records_bytes rs)
    (hsize : a.size = rs.length) (hwf : ∀ r ∈ rs, r.wf) (hv : (is_valid MD5 a).1 = 1) :
    ∀ r ∈ rs, r.digest.getD 0 0 = 0 ∧ r.digest.getD 1 0 = 0 := by
  have h := is_valid_loop_iff MD5 hdr hhdr rs [] a.offset (by simp) hwf
  simp only [List.nil_append, List.length_nil, Nat.zero_sub, List.take_nil, List.drop_nil,
    records_bytes, Nat.add_zero, Nat.zero_add] at h
  unfold is_valid at hv
  simp only [hstr, hsize] at hv
  exact chain_ok_zero MD5 rs [] (h.1 hv)

theorem is_valid_fields (MD5 : List Nat → Digest) (a : archive) :
    (is_valid MD5 a).2.str = a.str ∧ (is_valid MD5 a).2.len = a.len
      ∧ (is_valid MD5 a).2.size = a.size := by
  simp [is_valid]

/-! ## The contract of `add_message` -/

theorem mine_first (MD5 : List Nat → Digest) (offset n code : Nat) (P : List Nat)
    (hP : P.length = code) (hn : offset + n ≤ code + 16) (fuel : Nat) (X Y : List Nat) (k : Nat)
    (hX : X.length = 16) (hY : Y.length = 16)
    (hz : (MD5 (((P ++ LE128 k).drop offset).take n)).val.getD 0 0 = 0
      ∧ (MD5 (((P ++ LE128 k).drop offset).take n)).val.getD 1 0 = 0) :
    mine MD5 offset n code (fuel + 1) (P ++ (X ++ Y)) k
      = some (P ++ (LE128 k ++ (MD5 (((P ++ LE128 k).drop offset).take n)).val)) := by
  have h1 : memcpy (P ++ (X ++ Y)) code (LE128 k) = P ++ (LE128 k ++ Y) :=
    memcpy_mid P X Y (LE128 k) code hP.symm (by rw [hX, LE128_length])
  have hw : ((P ++ (LE128 k ++ Y)).drop offset).take n
      = ((P ++ LE128 k).drop offset).take n := by
    rw [← List.append_assoc, List.drop_append_of_le_length, List.take_append_of_le_length]
    · simp [LE128_length]; omega
    · simp [LE128_length]; omega
  have h2 : ∀ d : List Nat, d.length = 16 →
      memcpy (P ++ (LE128 k ++ Y)) (code + 16) d = P ++ (LE128 k ++ d) := by
    intro d hd
    have := memcpy_mid (P ++ LE128 k) Y [] d (code + 16)
      (by simp [LE128_length, hP]) (by rw [hY, hd])
    simpa [List.append_assoc] using this
  have h3 := read16_eq_zero (MD5 (((P ++ LE128 k).drop offset).take n)).val (P ++ LE128 k) []
    (code + 16) (by simp [LE128_length, hP]) (by rw [(MD5 _).property]; omega)
  simp only [List.append_nil, List.append_assoc] at h3
  unfold mine
  simp only [h1, hw, h2 _ (MD5 _).property]
  rw [if_pos (h3.2 hz)]

/-- With `lenMD5` the mining loop stops in its first round, so `add_message`
returns 1 on the message `a` within one round of fuel. -/
theorem add_message_lenMD5 (a : archive) (hlen : a.len = a.str.length)
    (hoff : a.offset ≤ a.len) : ∃ a1, add_message lenMD5 1 a [97] = some (1, a1) := by
  have hp : parse_message [97] % 65536 = 1 := by decide
  have e1 : realloc a.str (a.len + 1 + 33)
      = a.str ++ (List.replicate 1 0 ++ (List.replicate 1 0
          ++ (List.replicate 16 0 ++ List.replicate 16 0))) := by
    have : a.len + 1 + 33 = a.str.length + (1 + (1 + (16 + 16))) := by omega
    rw [this, realloc_grow]
    simp only [List.replicate_add]
  have e2 : memcpy (realloc a.str (a.len + 1 + 33)) a.len [1 % 256]
      = a.str ++ ([1 % 256] ++ (List.replicate 1 0
          ++ (List.replicate 16 0 ++ List.replicate 16 0))) := by
    rw [e1]
    exact memcpy_mid _ _ _ _ _ hlen (by simp)
  have e3 : memcpy (memcpy (realloc a.str (a.len + 1 + 33)) a.len [1 % 256]) (a.len + 1) [97]
      = (a.str ++ (1 % 256 :: [97])) ++ (List.replicate 16 0 ++ List.replicate 16 0) := by
    rw [e2]
    have := memcpy_mid (a.str ++ [1 % 256]) (List.replicate 1 0)
      (List.replicate 16 0 ++ List.replicate 16 0) [97] (a.len + 1) (by simp [hlen]) (by simp)
    simpa [List.append_assoc] using this
  have hm := mine_first lenMD5 a.offset (a.len - a.offset + 1 + 17) (a.len + 1 + 1)
    (a.str ++ (1 % 256 :: [97])) (by simp [hlen]) (by omega) 0 (List.replicate 16 0)
    (List.replicate 16 0) 0 (by simp) (by simp) ⟨rfl, rfl⟩
  have ht : List.take 1 [97] = [97] := rfl
  simp only [add_message, hp, ht, e3, Nat.zero_add] at hm ⊢
  rw [if_neg (by decide), hm]
  exact ⟨_, rfl⟩

theorem add_messages_lenMD5 : ∀ (n : Nat) (a : archive) (rs : List record),
    archive_inv lenMD5 a rs → ∃ A, add_messages lenMD5 1 a (List.replicate n [97]) = some A := by
  intro n
  induction n with
  | zero => intro a rs _; exact ⟨a, rfl⟩
  | succ n ih =>
    intro a rs hinv
    obtain ⟨-, -, hoff⟩ := archive_inv_bounds lenMD5 a rs hinv
    obtain ⟨a1, h1⟩ := add_message_lenMD5 a hinv.len_eq hoff
    obtain ⟨r, hinv1, -⟩ := add_message_inv lenMD5 1 a a1 rs [97] hinv (by decide) h1
    obtain ⟨A, h2⟩ := ih a1 _ hinv1
    exact ⟨A, (add_messages_cons lenMD5 1 a A [97] (List.replicate n [97])).2 ⟨a1, h1, h2⟩⟩

/-- **C9 (amended).** For every archive `A` produced from `init_archive()` by a
run of `n` successful `add_message` calls on messages of at most 255 content
bytes, with `5 + 289 n < 2^32` (the counts for which the receive buffer of
`process_archive` is computed without wrap-around), the parser of
`process_archive`, fed `A`'s bytes after the type byte, stays inside its buffer
and builds a candidate with the same `size`, the same `len` and the same bytes
as `A`. -/
theorem recv_archive_roundtrip (MD5 : List Nat → Digest) (fuel : Nat)
    (msgs : List (List Nat)) (A : archive) (hmsgs : ∀ m ∈ msgs, (content m).length ≤ 255)
    (hcount : 5 + msgs.length * 289 < 2 ^ 32)
    (h : add_messages MD5 fuel init_archive msgs = some A) :
    ∃ A1, recv_archive (A.str.drop 1) = some A1
      ∧ A1.size = A.size ∧ A1.len = A.len ∧ A1.str = A.str := by
  obtain ⟨rs, hinv, hc, -, -⟩ :=
    add_messages_inv MD5 fuel msgs init_archive A [] (init_archive_inv MD5) hmsgs h
  rw [List.nil_append] at hinv
  have hn : rs.length = msgs.length := by
    have := congrArg List.length hc
    simpa using this
  have hd : A.str.drop 1 = BE32 rs.length ++ records_bytes rs := by
    rw [hinv.str_eq]; rfl
  rw [hd, recv_archive_spec rs (by omega) hinv.wf]
  exact ⟨_, rfl, hinv.size_eq.symm, (archive_inv_bounds MD5 A rs hinv).1.symm, hinv.str_eq.symm⟩

set_option maxRecDepth 100000 in
/-- The archive `hi_there` survives the parser of `process_archive`. -/
theorem recv_archive_roundtrip_witness :
    (∀ m ∈ [[104, 105, 10], [116, 104, 101, 114, 101]], (content m).length ≤ 255)
    ∧ 5 + [[104, 105, 10], [116, 104, 101, 114, 101]].length * 289 < 2 ^ 32
    ∧ add_messages toyMD5 3 init_archive [[104, 105, 10], [116, 104, 101, 114, 101]]
        = some hi_there
    ∧ recv_archive (hi_there.str.drop 1) = some hi_there
    ∧ ∃ A1, recv_archive (hi_there.str.drop 1) = some A1
      ∧ A1.size = hi_there.size ∧ A1.len = hi_there.len ∧ A1.str = hi_there.str :=
  ⟨by decide, by decide, by decide, by decide,
    recv_archive_roundtrip toyMD5 3 [[104, 105, 10], [116, 104, 101, 114, 101]] hi_there
      (by decide) (by decide) (by decide)⟩

set_option maxRecDepth 100000 in
/-- **C9, counterexample.** The archive built by one successful call on 256
printable bytes has `len` 294; the parser of `process_archive` reads the stored
length byte 0, takes the next 32 bytes as nonce and digest and stops: the
candidate has `len` 38 and 38 bytes.  And for an archive built by 14861479
successful calls, on messages of at most 255 content bytes, the parser writes
outside its buffer, which has 140 bytes; with the stand-in `lenMD5` the run of
14861479 calls on the message `a` is such an archive. -/
theorem recv_archive_after_long_message :
    (add_messages toyMD5 3 init_archive [List.replicate 256 97]).bind
        (fun a => (recv_archive (a.str.drop 1)).map
          (fun c => (a.size, a.len, a.str.length, c.size, c.len, c.str.length)))
      = some (1, 294, 294, 1, 38, 38)
    ∧ recv_capacity 14861479 = 140
    ∧ (∀ (MD5 : List Nat → Digest) (fuel : Nat) (msgs : List (List Nat)) (A : archive),
        (∀ m ∈ msgs, (content m).length ≤ 255) → msgs.length = 14861479 →
        add_messages MD5 fuel init_archive msgs = some A →
        A.size = 14861479 ∧ 490428812 ≤ A.len ∧ A.len < 2 ^ 32
        ∧ recv_archive (A.str.drop 1) = none)
    ∧ ∃ A, add_messages lenMD5 1 init_archive (List.replicate 14861479 [97]) = some A
        ∧ recv_archive (A.str.drop 1) = none := by
  have hcap : recv_capacity 14861479 = 140 := by
    unfold recv_capacity
    norm_num
  have hall : ∀ (MD5 : List Nat → Digest) (fuel : Nat) (msgs : List (List Nat)) (A : archive),
      (∀ m ∈ msgs, (content m).length ≤ 255) → msgs.length = 14861479 →
      add_messages MD5 fuel init_archive msgs = some A →
      A.size = 14861479 ∧ 490428812 ≤ A.len ∧ A.len < 2 ^ 32
      ∧ recv_archive (A.str.drop 1) = none := ?_
  · refine ⟨by decide, hcap, hall, ?_⟩
    obtain ⟨A, hA⟩ := add_messages_lenMD5 14861479 init_archive [] (init_archive_inv lenMD5)
    refine ⟨A, hA, (hall lenMD5 1 _ A ?_ (List.length_replicate _ _) hA).2.2.2⟩
    intro m hm
    rw [List.eq_of_mem_replicate hm]
    decide
  intro MD5 fuel msgs A hmsgs hlen h
  obtain ⟨rs, hinv, hc, -, -⟩ :=
    add_messages_inv MD5 fuel msgs init_archive A [] (init_archive_inv MD5) hmsgs h
  rw [List.nil_append] at hinv
  have hn : rs.length = 14861479 := by
    have := congrArg List.length hc
    rw [← hlen]
    simpa using this
  have hd : A.str.drop 1 = BE32 rs.length ++ (records_bytes rs ++ []) := by
    rw [hinv.str_eq, List.append_nil]; rfl
  have hb := records_bytes_length_bounds rs hinv.wf
  have hl := (archive_inv_bounds MD5 A rs hinv).1
  rw [hn] at hb
  refine ⟨by rw [hinv.size_eq, hn], by omega, by omega, ?_⟩
  rw [hd]
  apply recv_archive_overflow rs (by omega) hinv.wf
  rw [hn, hcap]
  omega

/-! ## Two long runs, evaluated -/

set_option maxRecDepth 1000000 in
/-- The run `mixed_lengths` (21 calls on short messages, the first two of
different lengths) with the stand-in `lenMD5`: every call returns 1 and leaves
`offset` at 74; the bytes after the type byte, received by `process_archive`
with an empty active archive, fit the receive buffer, pass `is_valid` and are
adopted with `offset` 73; the next `add_message` returns 1 and `is_valid` on
its result, `offset` reset to 5, returns 0. -/
theorem mixed_lengths_run :
    (add_messages lenMD5 1 init_archive mixed_lengths).bind (fun built =>
      (recv_archive (built.str.drop 1)).bind (fun cand =>
        (process_archive lenMD5 init_archive (built.str.drop 1)).bind (fun adopted =>
          (add_message lenMD5 1 adopted [97]).map
            (fun r => (built.offset, (is_valid lenMD5 cand).1, adopted.size, adopted.offset,
              r.1, (is_valid lenMD5 { r.2 with offset := 5 }).1)))))
      = some (74, 1, 21, 73, 1, 0) := by
  decide!

/-- **C2, failing input.** A peer sends the 21 records mined from
`mixed_lengths` (record 1 has 1 content byte, record 2 has 2, record 3 starts
at byte 74).  `process_archive` accepts them: `is_valid` returns 1, and leaves
`offset` at 73.  The next `add_message` returns 1, and `is_valid` on the
result, with `offset` reset to 5, returns 0. -/
theorem append_after_adoption_invalid :
    record_start mixed_lengths (21 - 18) = 74
    ∧ ∃ built cand adopted appended,
      add_messages lenMD5 1 init_archive mixed_lengths = some built
      ∧ recv_archive (built.str.drop 1) = some cand
      ∧ (is_valid lenMD5 cand).1 = 1
      ∧ process_archive lenMD5 init_archive (built.str.drop 1) = some adopted
      ∧ adopted.size = 21 ∧ adopted.offset = 73
      ∧ add_message lenMD5 1 adopted [97] = some (1, appended)
      ∧ (is_valid lenMD5 { appended with offset := 5 }).1 = 0 := by
  refine ⟨by decide!, ?_⟩
  have h := mixed_lengths_run
  cases hb : add_messages lenMD5 1 init_archive mixed_lengths with
  | none => rw [hb] at h; simp at h
  | some built =>
    rw [hb] at h
    simp only [Option.some_bind] at h
    cases hc : recv_archive (built.str.drop 1) with
    | none => rw [hc] at h; simp at h
    | some cand =>
      rw [hc] at h
      simp only [Option.some_bind] at h
      cases hp : process_archive lenMD5 init_archive (built.str.drop 1) with
      | none => rw [hp] at h; simp at h
      | some adopted =>
        rw [hp] at h
        simp only [Option.some_bind] at h
        cases hr : add_message lenMD5 1 adopted [97] with
        | none => rw [hr] at h; simp at h
        | some r =>
          rw [hr] at h
          simp only [Option.map_some', Option.some.injEq, Prod.mk.injEq] at h
          obtain ⟨r1, appended⟩ := r
          obtain ⟨-, h2, h3, h4, h5, h6⟩ := h
          simp only at h5 h6
          subst h5
          exact ⟨built, cand, adopted, appended, rfl, hc, h2, hp, h3, h4, hr, h6⟩

set_option maxRecDepth 100000 in
/-- The archive `hi`: one well-formed record behind a 5-byte header. -/
theorem is_valid_iff_hash_domain_witness :
    [4, 0, 0, 0, 1].length = 5
    ∧ hi.str = [4, 0, 0, 0, 1] ++ records_bytes [hi_record]
    ∧ hi.size = [hi_record].length
    ∧ (∀ r ∈ [hi_record], r.wf)
    ∧ ((is_valid toyMD5 hi).1 = 1 ↔
        ∀ i, 1 ≤ i → i ≤ hi.size →
          ∃ r, [hi_record][i - 1]? = some r ∧ r.digest.getD 0 0 = 0 ∧ r.digest.getD 1 0 = 0
            ∧ r.digest = (toyMD5 (hash_domain [hi_record] i)).val) :=
  ⟨rfl, by decide, rfl, by simp [record.wf, hi_record, LE128],
    is_valid_iff_hash_domain toyMD5 hi [4, 0, 0, 0, 1] [hi_record] rfl (by decide) rfl
      (by simp [record.wf, hi_record, LE128])⟩

/-! ## The mined nonce is the least counter -/

theorem getD_header_head (hdr l : List Nat) (hhdr : hdr.length = 5) :
    (hdr ++ l).getD 5 0 = l.headD 0 := by
  cases l with
  | nil =>
    rw [List.append_nil, List.getD_eq_getElem?_getD, List.getElem?_eq_none (by omega)]
    rfl
  | cons x l => exact getD_mid _ _ _ _ hhdr.symm

/-- The value of `arch->offset` when the loop of `is_valid` runs to its end:
every round with `i > 19` adds the size of the record at `begin`, which is
record 1 at `i = 20` and at `i = 21`, and record `i - 20` afterwards. -/
theorem is_valid_loop_offset (MD5 : List Nat → Digest) (hdr : List Nat) (hhdr : hdr.length = 5) :
    ∀ (post pre : List record) (off : Nat), (∀ r ∈ pre, r.wf) → (∀ r ∈ post, r.wf) →
      (is_valid_loop MD5 (hdr ++ records_bytes (pre ++ post)) post.length (pre.length + 1)
          (5 + (records_bytes (pre.take (pre.length - 20))).length)
          (5 + (records_bytes pre).length)
          (records_bytes (pre.drop (pre.length - 20))).length off).1 = 1 →
      (is_valid_loop MD5 (hdr ++ records_bytes (pre ++ post)) post.length (pre.length + 1)
          (5 + (records_bytes (pre.take (pre.length - 20))).length)
          (5 + (records_bytes pre).length)
          (records_bytes (pre.drop (pre.length - 20))).length off).2
        + (if 20 ≤ pre.length then (records_bytes (pre ++ post)).headD 0 + 33
              + (records_bytes (pre.take (pre.length - 20))).length else 0)
        = off + (if 20 ≤ pre.length + post.length then (records_bytes (pre ++ post)).headD 0 + 33
              + (records_bytes ((pre ++ post).take (pre.length + post.length - 20))).length
            else 0) := by
  intro post
  induction post with
  | nil =>
    intro pre off _ _ _
    simp [is_valid_loop]
  | cons r post ih =>
    intro pre off hpre hpost
    have hrwf : r.wf := hpost r (List.mem_cons_self _ _)
    have hr33 := record_bytes_length r hrwf
    have hr17 := upto_nonce_length r hrwf
    obtain ⟨hrc, hrn, hrd⟩ := hrwf
    have hpre1 : ∀ x ∈ pre ++ [r], x.wf := by
      intro x hx
      rcases List.mem_append.1 hx with hx | hx
      · exact hpre x hx
      · rw [List.mem_singleton.1 hx]; exact ⟨hrc, hrn, hrd⟩
    have hpost1 : ∀ x ∈ post, x.wf := fun x hx => hpost x (List.mem_cons_of_mem _ hx)
    have IH := ih (pre ++ [r])
    have G1 : (pre ++ [r]) ++ post = pre ++ r :: post := by simp
    have G3 : (pre ++ [r]).take ((pre ++ [r]).length - 20) = pre.take (pre.length - 19) := by
      rw [List.length_append, List.length_singleton, List.take_append_of_le_length (by omega)]
      congr 1
    have G5 : (pre ++ [r]).drop ((pre ++ [r]).length - 20)
        = pre.drop (pre.length - 19) ++ [r] := by
      rw [List.length_append, List.length_singleton, List.drop_append_of_le_length (by omega)]
      congr 2
    have G4 : (records_bytes (pre ++ [r])).length
        = (records_bytes pre).length + (r.content.length + 17) + 16 := by
      simp [records_bytes_append, records_bytes, hr33]; omega
    have G6 : (records_bytes (pre.drop (pre.length - 19) ++ [r])).length
        = (records_bytes (pre.drop (pre.length - 19))).length + (r.content.length + 17) + 16 := by
      simp [records_bytes_append, records_bytes, hr33]; omega
    have G7 : 5 + ((records_bytes pre).length + (r.content.length + 17) + 16)
        = 5 + (records_bytes pre).length + (r.content.length + 17) + 16 := by omega
    rw [G1, G3, G5, G4, G6, G7, List.length_append, List.length_singleton] at IH
    have hs1 : hdr ++ records_bytes (pre ++ r :: post)
        = (hdr ++ records_bytes pre) ++ (r.content.length
            :: (r.content ++ r.nonce ++ r.digest ++ records_bytes post)) := by
      simp [records_bytes_append, records_bytes, record.bytes, record.upto_nonce]
    have F1 : (hdr ++ records_bytes (pre ++ r :: post)).getD (5 + (records_bytes pre).length) 0
        = r.content.length := by
      rw [hs1]; exact getD_mid _ _ _ _ (by simp [hhdr])
    -- the window of the round, and what the round adds to `offset`
    have hwin : (if pre.length + 1 > 20 then
          5 + (records_bytes (pre.take (pre.length - 20))).length
            + ((hdr ++ records_bytes (pre ++ r :: post)).getD
                (5 + (records_bytes (pre.take (pre.length - 20))).length) 0 + 33)
        else 5 + (records_bytes (pre.take (pre.length - 20))).length)
          = 5 + (records_bytes (pre.take (pre.length - 19))).length
        ∧ (if pre.length + 1 > 20 then
          (records_bytes (pre.drop (pre.length - 20))).length + (r.content.length + 17)
            - ((hdr ++ records_bytes (pre ++ r :: post)).getD
                (5 + (records_bytes (pre.take (pre.length - 20))).length) 0 + 33)
        else (records_bytes (pre.drop (pre.length - 20))).length + (r.content.length + 17))
          = (records_bytes (pre.drop (pre.length - 19))).length + (r.content.length + 17)
        ∧ (if pre.length + 1 > 19 then off + ((hdr ++ records_bytes (pre ++ r :: post)).getD
                (5 + (records_bytes (pre.take (pre.length - 20))).length) 0 + 33) else off)
            + (if 20 ≤ pre.length then (records_bytes (pre ++ r :: post)).headD 0 + 33
                + (records_bytes (pre.take (pre.length - 20))).length else 0)
          = off + (if 20 ≤ pre.length + 1 then (records_bytes (pre ++ r :: post)).headD 0 + 33
                + (records_bytes (pre.take (pre.length - 19))).length else 0) := by
      by_cases hge : 20 ≤ pre.length
      · have hlt : pre.length - 20 < pre.length := by omega
        have e19 : pre.length - 20 + 1 = pre.length - 19 := by omega
        have hb : pre.drop (pre.length - 20)
            = pre[pre.length - 20] :: pre.drop (pre.length - 19) := by
          rw [← e19]; exact List.drop_eq_getElem_cons hlt
        have hbwf : (pre[pre.length - 20]).wf := hpre _ (List.getElem_mem _)
        generalize pre[pre.length - 20] = b at hb hbwf
        have hb33 := record_bytes_length b hbwf
        have htake : pre.take (pre.length - 19) = pre.take (pre.length - 20) ++ [b] := by
          rw [← e19, List.take_add, hb]; simp
        have hs4 : hdr ++ records_bytes (pre ++ r :: post)
            = (hdr ++ records_bytes (pre.take (pre.length - 20))) ++ (b.content.length
                :: (b.content ++ b.nonce ++ b.digest ++ records_bytes (pre.drop (pre.length - 19))
                  ++ records_bytes (r :: post))) := by
          rw [records_bytes_append, records_bytes_take_drop pre (pre.length - 20), hb]
          simp [records_bytes, record.bytes, record.upto_nonce]
        have F4 : (hdr ++ records_bytes (pre ++ r :: post)).getD
            (5 + (records_bytes (pre.take (pre.length - 20))).length) 0 = b.content.length := by
          rw [hs4]; exact getD_mid _ _ _ _ (by simp [hhdr])
        have hgt : pre.length + 1 > 20 := by omega
        have hgt19 : pre.length + 1 > 19 := by omega
        have hge1 : 20 ≤ pre.length + 1 := by omega
        rw [if_pos hgt, if_pos hgt, if_pos hgt19, if_pos hge, if_pos hge1, F4, htake, hb]
        simp only [records_bytes_append, records_bytes, List.length_append, hb33,
          List.append_nil]
        omega
      · have e1 : pre.length - 20 = 0 := by omega
        have e2 : pre.length - 19 = 0 := by omega
        have hgt : ¬ pre.length + 1 > 20 := by omega
        rw [if_neg hgt, if_neg hgt, if_neg hge, e1, e2]
        refine ⟨rfl, rfl, ?_⟩
        by_cases h19 : pre.length = 19
        · have hgt19 : pre.length + 1 > 19 := by omega
          have hge1 : 20 ≤ pre.length + 1 := by omega
          rw [if_pos hgt19, if_pos hge1]
          simp only [List.take_zero, records_bytes, List.length_nil, Nat.add_zero]
          rw [getD_header_head _ _ hhdr]
        · have hgt19 : ¬ pre.length + 1 > 19 := by omega
          have hge1 : ¬ 20 ≤ pre.length + 1 := by omega
          rw [if_neg hgt19, if_neg hge1]
    obtain ⟨hw1, hw2, hw3⟩ := hwin
    have hlen1 : pre.length + (post.length + 1) = pre.length + 1 + post.length := by omega
    rw [List.length_cons, is_valid_loop, hlen1]
    simp only [F1]
    rw [hw1, hw2]
    generalize (if pre.length + 1 > 19 then off + ((hdr ++ records_bytes (pre ++ r :: post)).getD
                (5 + (records_bytes (pre.take (pre.length - 20))).length) 0 + 33) else off)
        = off1 at hw3 ⊢
    split
    · intro h; simp at h
    · split
      · intro h; simp at h
      · intro h
        have := IH off1 hpre1 hpost1 h
        omega

/-- **C11.** For a well-framed archive whose `offset` is 5 before the call and
on which `is_valid` returns 1, the `offset` afterwards is 5 when the count `n`
is at most 19, and otherwise 5 plus the size of record 1 plus the sizes of
records `1..n-20`: the rounds `i = 20` and `i = 21` both add the size of record
1.  So for `n ≥ 20` it is the byte index of the start of record `n-18` exactly
when record `n-19` has as many content bytes as record 1. -/
theorem is_valid_offset (MD5 : List Nat → Digest) (a : archive) (hdr : List Nat)
    (rs : List record) (hhdr : hdr.length = 5) (hstr : a.str = hdr ++ records_bytes rs)
    (hsize : a.size = rs.length) (hwf : ∀ r ∈ rs, r.wf) (hoff : a.offset = 5)
    (hv : (is_valid MD5 a).1 = 1) :
    (is_valid MD5 a).2.offset
        = (if rs.length ≤ 19 then 5
           else 5 + ((records_bytes rs).headD 0 + 33)
                  + (records_bytes (rs.take (rs.length - 20))).length)
      ∧ (20 ≤ rs.length → ∀ r1 rk, rs[0]? = some r1 → rs[rs.length - 20]? = some rk →
          ((is_valid MD5 a).2.offset = 5 + (records_bytes (rs.take (rs.length - 19))).length
            ↔ rk.content.length = r1.content.length)) := by
  have h := is_valid_loop_offset MD5 hdr hhdr rs [] a.offset (by simp) hwf
  simp only [List.nil_append, List.length_nil, Nat.zero_sub, List.take_nil, List.drop_nil,
    records_bytes, Nat.add_zero, Nat.zero_add, Nat.not_succ_le_zero, if_false] at h
  unfold is_valid at hv ⊢
  simp only [hstr, hsize] at hv ⊢
  have h1 := h hv
  rw [hoff] at h1 hv ⊢
  rw [if_neg (by omega : ¬ 20 ≤ 0), Nat.add_zero] at h1
  have hfirst : (is_valid_loop MD5 (hdr ++ records_bytes rs) rs.length 1 5 5 0 5).2
      = (if rs.length ≤ 19 then 5
         else 5 + ((records_bytes rs).headD 0 + 33)
                + (records_bytes (rs.take (rs.length - 20))).length) := by
    rw [h1]
    by_cases hn : 20 ≤ rs.length
    · rw [if_pos hn, if_neg (by omega)]; omega
    · rw [if_neg hn, if_pos (by omega)]
  refine ⟨hfirst, ?_⟩
  intro hn r1 rk hr1 hrk
  rw [hfirst, if_neg (by omega)]
  have hlt : rs.length - 20 < rs.length := by omega
  have e19 : rs.length - 20 + 1 = rs.length - 19 := by omega
  have hk : rs[rs.length - 20] = rk := by
    rw [List.getElem?_eq_getElem hlt] at hrk
    exact Option.some.inj hrk
  have hb : rs.drop (rs.length - 20) = rk :: rs.drop (rs.length - 19) := by
    rw [← e19, ← hk]; exact List.drop_eq_getElem_cons hlt
  have htake : rs.take (rs.length - 19) = rs.take (rs.length - 20) ++ [rk] := by
    rw [← e19, List.take_add, hb]; simp
  have hkwf : rk.wf := by rw [← hk]; exact hwf _ (List.getElem_mem _)
  have hk33 := record_bytes_length rk hkwf
  have hhead : (records_bytes rs).headD 0 = r1.content.length := by
    cases rs with
    | nil => simp at hn
    | cons x rest =>
      simp only [List.getElem?_cons_zero, Option.some.injEq] at hr1
      subst hr1
      simp [records_bytes, record.bytes, record.upto_nonce]
  rw [htake, hhead]
  simp only [records_bytes_append, records_bytes, List.length_append, hk33, List.append_nil]
  omega

set_option maxRecDepth 1000000 in
/-- The candidate `mixed_candidate`, which `process_archive` builds from the
bytes of `mixed_built`: 21 well-formed records, of which record 1 has 1 content
byte and record 2 has 2.  `is_valid` returns 1 and leaves `offset` at 73, while
record 3 starts at byte 74. -/
theorem is_valid_offset_witness :
    [4, 0, 0, 0, 21].length = 5
    ∧ recv_archive (mixed_built.str.drop 1) = some mixed_candidate
    ∧ mixed_candidate.str = [4, 0, 0, 0, 21] ++ records_bytes mixed_records
    ∧ mixed_candidate.size = mixed_records.length
    ∧ (∀ r ∈ mixed_records, r.wf)
    ∧ mixed_candidate.offset = 5
    ∧ (is_valid lenMD5 mixed_candidate).1 = 1
    ∧ (is_valid lenMD5 mixed_candidate).2.offset = 73
    ∧ 5 + (records_bytes (mixed_records.take (21 - 19))).length = 74 :=
  ⟨rfl, by decide!, rfl, by decide!, by decide!, rfl, by decide!,
    (is_valid_offset lenMD5 mixed_candidate [4, 0, 0, 0, 21] mixed_records rfl rfl
      (by decide!) (by decide!) rfl (by decide!)).1.trans (by decide!),
    by decide!⟩

/-! ## `is_valid` on an archive with one record changed -/

theorem is_valid_loop_values (MD5 : List Nat → Digest) (str : List Nat) :
    ∀ (n i b e m off : Nat), (is_valid_loop MD5 str n i b e m off).1 = 0
      ∨ (is_valid_loop MD5 str n i b e m off).1 = 1 := by
  intro n
  induction n with
  | zero => intro i b e m off; right; rfl
  | succ n ih =>
    intro i b e m off
    rw [is_valid_loop]
    simp only
    split_ifs <;> first | (left; rfl) | exact ih _ _ _ _ _

theorem chain_ok_split (MD5 : List Nat → Digest) :
    ∀ (mid pre post : List record), chain_ok MD5 pre (mid ++ post) →
      chain_ok MD5 (pre ++ mid) post := by
  intro mid
  induction mid with
  | nil => intro pre post h; simpa using h
  | cons x mid ih =>
    intro pre post h
    rw [List.cons_append, chain_ok] at h
    have := ih (pre ++ [x]) post h.2
    simpa using this

/-- When record `r` of a well-framed archive, the one after the records `pre`,
stores a digest that is not MD5 of its hash window (the last 19 records of
`pre` followed by the length byte, content and nonce of `r`), `is_valid`
returns 0.  This covers an archive that passed `is_valid` and in which a
digest byte of `r` was changed afterwards (the window is the same, the stored
digest is not), and one in which a content or nonce byte of `r` was changed,
as long as MD5 of the changed window differs from MD5 of the original one. -/
theorem is_valid_record_mismatch (MD5 : List Nat → Digest) (a : archive) (hdr : List Nat)
    (pre post : List record) (r : record) (hhdr : hdr.length = 5)
    (hstr : a.str = hdr ++ records_bytes (pre ++ r :: post))
    (hsize : a.size = (pre ++ r :: post).length) (hwf : ∀ x ∈ pre ++ r :: post, x.wf)
    (hne : (MD5 (records_bytes (pre.drop (pre.length - 19)) ++ r.upto_nonce)).val ≠ r.digest) :
    (is_valid MD5 a).1 = 0 := by
  have h := is_valid_loop_iff MD5 hdr hhdr (pre ++ r :: post) [] a.offset (by simp) hwf
  simp only [List.nil_append, List.length_nil, Nat.zero_sub, List.take_nil, List.drop_nil,
    records_bytes, Nat.add_zero, Nat.zero_add] at h
  unfold is_valid
  simp only [hstr, hsize]
  rcases is_valid_loop_values MD5 (hdr ++ records_bytes (pre ++ r :: post))
    (pre ++ r :: post).length 1 5 5 0 a.offset with h0 | h1
  · exact h0
  · have hc := chain_ok_split MD5 pre [] (r :: post) (h.1 h1)
    rw [List.nil_append, chain_ok] at hc
    exact absurd hc.1.2.2 hne

/-- After `is_valid` has returned 1 on a well-framed archive, changing the
stored digest of one record (any of its 16 bytes) makes `is_valid` return 0;
changing its content or nonce without changing their lengths makes `is_valid`
return 0 provided MD5 of the changed hash window differs from MD5 of the
original one. -/
theorem is_valid_after_change (MD5 : List Nat → Digest) (a b : archive) (hdr : List Nat)
    (pre post : List record) (r s : record) (hhdr : hdr.length = 5)
    (hstr : a.str = hdr ++ records_bytes (pre ++ r :: post))
    (hsize : a.size = (pre ++ r :: post).length) (hwf : ∀ x ∈ pre ++ r :: post, x.wf)
    (hv : (is_valid MD5 a).1 = 1)
    (hstr2 : b.str = hdr ++ records_bytes (pre ++ s :: post))
    (hsize2 : b.size = (pre ++ s :: post).length) (hs : s.wf) :
    (s.upto_nonce = r.upto_nonce → s.digest ≠ r.digest → (is_valid MD5 b).1 = 0)
    ∧ (s.digest = r.digest →
        MD5 (records_bytes (pre.drop (pre.length - 19)) ++ s.upto_nonce)
          ≠ MD5 (records_bytes (pre.drop (pre.length - 19)) ++ r.upto_nonce) →
        (is_valid MD5 b).1 = 0) := by
  have h := is_valid_loop_iff MD5 hdr hhdr (pre ++ r :: post) [] a.offset (by simp) hwf
  simp only [List.nil_append, List.length_nil, Nat.zero_sub, List.take_nil, List.drop_nil,
    records_bytes, Nat.add_zero, Nat.zero_add] at h
  unfold is_valid at hv
  simp only [hstr, hsize] at hv
  have hc := chain_ok_split MD5 pre [] (r :: post) (h.1 hv)
  rw [List.nil_append, chain_ok] at hc
  have hd := hc.1.2.2
  have hwf2 : ∀ x ∈ pre ++ s :: post, x.wf := by
    intro x hx
    rcases List.mem_append.1 hx with hx | hx
    · exact hwf x (List.mem_append_left _ hx)
    · rcases List.mem_cons.1 hx with hx | hx
      · rw [hx]; exact hs
      · exact hwf x (List.mem_append_right _ (List.mem_cons_of_mem _ hx))
  constructor
  · intro hu hdne
    apply is_valid_record_mismatch MD5 b hdr pre post s hhdr hstr2 hsize2 hwf2
    rw [hu, hd]
    exact fun e => hdne e.symm
  · intro hde hne
    apply is_valid_record_mismatch MD5 b hdr pre post s hhdr hstr2 hsize2 hwf2
    rw [hde, ← hd]
    exact fun e => hne (Subtype.ext e)

set_option maxRecDepth 100000 in
/-- The record `hi_record` of the archive `hi`, which passes `is_valid` with
`toyMD5`: with the digest byte 213 changed to 214, and with the content byte
105 changed to 106 (the changed window has another `toyMD5`), `is_valid`
returns 0. -/
theorem is_valid_after_change_witness :
    [4, 0, 0, 0, 1].length = 5
    ∧ hi.str = [4, 0, 0, 0, 1] ++ records_bytes ([] ++ hi_record :: [])
    ∧ (is_valid toyMD5 hi).1 = 1
    ∧ (is_valid toyMD5 { hi with str := hi.str.set 26 214 }).1 = 0
    ∧ (is_valid toyMD5 { hi with str := hi.str.set 7 106 }).1 = 0 :=
  ⟨rfl, by decide, by decide,
    (is_valid_after_change toyMD5 hi { hi with str := hi.str.set 26 214 } [4, 0, 0, 0, 1] [] []
      hi_record { hi_record with digest := hi_record.digest.set 2 214 } rfl
      (by decide) rfl (by decide) (by decide) (by decide) rfl (by decide)).1
      (by decide) (by decide),
    (is_valid_after_change toyMD5 hi { hi with str := hi.str.set 7 106 } [4, 0, 0, 0, 1] [] []
      hi_record { hi_record with content := [104, 106] } rfl
      (by decide) rfl (by decide) (by decide) (by decide) rfl (by decide)).2
      (by decide) (by decide)⟩

theorem nested_framed (MD5 : List Nat → Digest) (N1 N2 : List Nat) (h1 : N1.length = 16) :
    nested_str MD5 N1 N2 33 = [4, 0, 0, 0, 1]
      ++ records_bytes ([] ++ [⟨outer_content MD5 N1, N2, (MD5 (outer_window MD5 N1 N2)).val⟩])
    := by
  have hc : (outer_content MD5 N1).length = 33 := by
    simp [outer_content, h1, (MD5 (inner_window N1)).property]
  simp [nested_str, records_bytes, record.bytes, record.upto_nonce, hc]

/-- **C12, counterexample.** For any hash function, let `N1` be a nonce for
which the digest of the window `01 61 N1` starts with two zero bytes, and
`N2` one for which the digest of the window `21 c N2` does, where `c` is the
33 bytes `61 N1 MD5(01 61 N1)` (nonces as the mining loop of `add_message`
finds them).  The archive `04 00000001 21 c N2 MD5(21 c N2)` is well framed and
`is_valid` returns 1 on it; with its length byte (index 5) changed from 33 to
1, `is_valid` still returns 1: the first 33 bytes after the length byte then
read as a whole record.  With the stand-in `toyMD5` both nonces are the
encoding of 1. -/
theorem length_byte_change_accepted :
    (∀ (MD5 : List Nat → Digest) (N1 N2 : List Nat), N1.length = 16 → N2.length = 16 →
      ((MD5 (inner_window N1)).val.getD 0 0 = 0 ∧ (MD5 (inner_window N1)).val.getD 1 0 = 0) →
      ((MD5 (outer_window MD5 N1 N2)).val.getD 0 0 = 0
        ∧ (MD5 (outer_window MD5 N1 N2)).val.getD 1 0 = 0) →
      (nested MD5 N1 N2 33).str = [4, 0, 0, 0, 1]
        ++ records_bytes [⟨outer_content MD5 N1, N2, (MD5 (outer_window MD5 N1 N2)).val⟩]
      ∧ (is_valid MD5 (nested MD5 N1 N2 33)).1 = 1
      ∧ (nested MD5 N1 N2 1).str = (nested MD5 N1 N2 33).str.set 5 1
      ∧ (is_valid MD5 (nested MD5 N1 N2 1)).1 = 1)
    ∧ ((toyMD5 (inner_window (LE128 1))).val.getD 0 0 = 0
      ∧ (toyMD5 (inner_window (LE128 1))).val.getD 1 0 = 0
      ∧ (toyMD5 (outer_window toyMD5 (LE128 1) (LE128 1))).val.getD 0 0 = 0
      ∧ (toyMD5 (outer_window toyMD5 (LE128 1) (LE128 1))).val.getD 1 0 = 0
      ∧ (is_valid toyMD5 (nested toyMD5 (LE128 1) (LE128 1) 33)).1 = 1
      ∧ (is_valid toyMD5 (nested toyMD5 (LE128 1) (LE128 1) 1)).1 = 1) := by
  refine ⟨?_, by decide, by decide, by decide, by decide, by decide, by decide⟩
  intro MD5 N1 N2 h1 h2 hz1 hz2
  have hd1 := (MD5 (inner_window N1)).property
  have hd2 := (MD5 (outer_window MD5 N1 N2)).property
  have hc : (outer_content MD5 N1).length = 33 := by simp [outer_content, h1, hd1]
  refine ⟨nested_framed MD5 N1 N2 h1, ?_, rfl, ?_⟩
  · have hwf : ∀ x ∈ [(⟨outer_content MD5 N1, N2, (MD5 (outer_window MD5 N1 N2)).val⟩ : record)],
        x.wf := by
      intro x hx
      rw [List.mem_singleton.1 hx]
      exact ⟨by show (outer_content MD5 N1).length ≤ 255; omega, h2, hd2⟩
    have h := is_valid_loop_iff MD5 [4, 0, 0, 0, 1] rfl
      [⟨outer_content MD5 N1, N2, (MD5 (outer_window MD5 N1 N2)).val⟩] [] 5 (by simp) hwf
    simp only [List.nil_append, List.length_nil, Nat.zero_sub, List.take_nil, List.drop_nil,
      records_bytes, Nat.add_zero, Nat.zero_add] at h
    unfold is_valid
    show (is_valid_loop MD5 (nested_str MD5 N1 N2 33) 1 1 5 5 0 5).1 = 1
    rw [nested_framed MD5 N1 N2 h1]
    simp only [List.nil_append, records_bytes]
    apply h.2
    simp only [chain_ok, List.length_nil, Nat.zero_sub, List.drop_nil, records_bytes,
      List.nil_append, record.upto_nonce, hc, and_true]
    exact ⟨hz2.1, hz2.2, rfl⟩
  · unfold is_valid
    show (is_valid_loop MD5 (nested_str MD5 N1 N2 1) 1 1 5 5 0 5).1 = 1
    have hs : nested_str MD5 N1 N2 1 = ([4, 0, 0, 0, 1] ++ inner_window N1)
        ++ ((MD5 (inner_window N1)).val ++ (N2 ++ (MD5 (outer_window MD5 N1 N2)).val)) := by
      simp [nested_str, outer_content, inner_window]
    have E1 : (nested_str MD5 N1 N2 1).getD 5 0 = 1 := getD_mid _ _ _ _ rfl
    have E2 : read16 (nested_str MD5 N1 N2 1) (5 + (1 + 17)) = 0 := by
      rw [hs]
      exact (read16_eq_zero _ _ _ _ (by simp [inner_window, h1]) (by omega)).2 hz1
    have E3 : ((nested_str MD5 N1 N2 1).drop 5).take (0 + (1 + 17)) = inner_window N1 := by
      rw [hs, List.append_assoc]
      exact drop_take_mid _ _ _ _ _ rfl (by simp [inner_window, h1])
    have E4 : ((nested_str MD5 N1 N2 1).drop (5 + (1 + 17))).take 16
        = (MD5 (inner_window N1)).val := by
      rw [hs]
      exact drop_take_mid _ _ _ _ _ (by simp [inner_window, h1]) hd1.symm
    rw [is_valid_loop]
    simp only [E1, E2, E3, E4, ne_eq, not_true_eq_false, if_false, Nat.lt_irrefl,
      gt_iff_lt, Nat.reduceLT, is_valid_loop]

/-! ## `offset` during the first 21 appends -/

theorem add_message_size_offset (MD5 : List Nat → Digest) (fuel : Nat) (a a1 : archive)
    (msg : List Nat) (h : add_message MD5 fuel a msg = some (1, a1)) :
    a1.size = a.size + 1 ∧ (a.size + 1 < 20 → a1.offset = a.offset) := by
  have h0 : parse_message msg % 65536 ≠ 0 := by
    rcases add_message_cases MD5 fuel a a1 msg 1 h with h1 | h1
    · exact absurd h1.1 (by decide)
    · exact h1.2
  simp only [add_message, if_neg h0] at h
  split at h
  · simp at h
  · simp only [Option.some.injEq, Prod.mk.injEq, true_and] at h
    subst h
    refine ⟨rfl, fun hlt => ?_⟩
    show (if a.size + 1 ≥ 20 then _ else a.offset) = a.offset
    rw [if_neg (by omega)]

theorem add_messages_size_offset (MD5 : List Nat → Digest) (fuel : Nat) :
    ∀ (msgs : List (List Nat)) (a a2 : archive), add_messages MD5 fuel a msgs = some a2 →
      a2.size = a.size + msgs.length ∧ (a.size + msgs.length < 20 → a2.offset = a.offset) := by
  intro msgs
  induction msgs with
  | nil =>
    intro a a2 h
    simp only [add_messages, Option.some.injEq] at h
    subst h
    exact ⟨rfl, fun _ => rfl⟩
  | cons m ms ih =>
    intro a a2 h
    obtain ⟨a1, h1, h2⟩ := (add_messages_cons MD5 fuel a a2 m ms).1 h
    obtain ⟨hs1, ho1⟩ := add_message_size_offset MD5 fuel a a1 m h1
    obtain ⟨hs2, ho2⟩ := ih a1 a2 h2
    refine ⟨by rw [hs2, hs1, List.length_cons]; omega, fun hlt => ?_⟩
    rw [List.length_cons] at hlt
    rw [ho2 (by omega), ho1 (by omega)]

theorem add_messages_append (MD5 : List Nat → Digest) (fuel : Nat) :
    ∀ (xs ys : List (List Nat)) (a a2 : archive),
      add_messages MD5 fuel a (xs ++ ys) = some a2 →
      ∃ a1, add_messages MD5 fuel a xs = some a1 ∧ add_messages MD5 fuel a1 ys = some a2 := by
  intro xs
  induction xs with
  | nil => intro ys a a2 h; exact ⟨a, rfl, h⟩
  | cons x xs ih =>
    intro ys a a2 h
    rw [List.cons_append] at h
    obtain ⟨a0, h0, h1⟩ := (add_messages_cons MD5 fuel a a2 x (xs ++ ys)).1 h
    obtain ⟨a1, h2, h3⟩ := ih ys a0 a2 h1
    exact ⟨a1, (add_messages_cons MD5 fuel a a1 x xs).2 ⟨a0, h0, h2⟩, h3⟩

theorem add_messages_offset_start (MD5 : List Nat → Digest) (fuel : Nat)
    (msgs : List (List Nat)) (a : archive) (hmsgs : ∀ m ∈ msgs, (content m).length ≤ 255)
    (h : add_messages MD5 fuel init_archive msgs = some a) :
    a.offset = record_start msgs (msgs.length - 19 + 1) := by
  obtain ⟨rs, hinv, hc, hl, -⟩ :=
    add_messages_inv MD5 fuel msgs init_archive a [] (init_archive_inv MD5) hmsgs h
  rw [List.nil_append] at hinv
  have hn : rs.length = msgs.length := by
    have := congrArg List.length hc
    simpa using this
  rw [hinv.offset_eq, hn, record_start_eq msgs rs hinv.wf hl, Nat.add_sub_cancel]

theorem record_start_lt (msgs : List (List Nat)) (j : Nat) (hj : j + 1 ≤ msgs.length) :
    record_start msgs (j + 1) < record_start msgs (j + 2) := by
  unfold record_start
  simp only [Nat.add_sub_cancel, Nat.add_lt_add_iff_left]
  have e : j + 2 - 1 = j + 1 := by omega
  rw [e, List.take_succ, List.map_append, List.sum_append]
  have hlt : j < msgs.length := by omega
  rw [List.getElem?_eq_getElem hlt]
  simp only [Option.toList, List.map_cons, List.map_nil, List.sum_cons, List.sum_nil]
  omega

/-- **C14 (amended).** For every archive built from `init_archive()` by `n`
calls of `add_message` that each return 1, `offset` equals 5 whenever
`n ≤ 19`; when every message has at most 255 content bytes, after exactly 20
calls `offset` equals the byte index of the start of record 2, which is past
byte 5, and after exactly 21 calls it equals the byte index of the start of
record 3, which is past the start of record 2. -/
theorem offset_first_appends (MD5 : List Nat → Digest) (fuel : Nat)
    (msgs : List (List Nat)) (a : archive)
    (h : add_messages MD5 fuel init_archive msgs = some a) :
    (msgs.length ≤ 19 → a.offset = 5)
    ∧ ((∀ m ∈ msgs, (content m).length ≤ 255) →
        (msgs.length = 20 → a.offset = record_start msgs 2 ∧ 5 < a.offset)
        ∧ (msgs.length = 21 →
            a.offset = record_start msgs 3 ∧ record_start msgs 2 < a.offset)) := by
  refine ⟨fun hn => ?_, fun hmsgs => ⟨fun hn => ?_, fun hn => ?_⟩⟩
  · have := (add_messages_size_offset MD5 fuel msgs init_archive a h).2
    exact this (by show 0 + msgs.length < 20; omega)
  · have ho := add_messages_offset_start MD5 fuel msgs a hmsgs h
    rw [hn] at ho
    have hlt := record_start_lt msgs 0 (by omega)
    have h1 : record_start msgs (0 + 1) = 5 := by simp [record_start]
    rw [h1] at hlt
    exact ⟨ho, by rw [ho]; exact hlt⟩
  · have ho := add_messages_offset_start MD5 fuel msgs a hmsgs h
    rw [hn] at ho
    have hlt := record_start_lt msgs 1 (by omega)
    exact ⟨ho, by rw [ho]; exact hlt⟩

set_option maxRecDepth 1000000 in
/-- The run `mixed_lengths` with `lenMD5`: 21 calls that each return 1 build
`mixed_built`, whose `offset` is 74, the start of record 3; record 2 starts at
39. -/
theorem offset_first_appends_witness :
    add_messages lenMD5 1 init_archive mixed_lengths = some mixed_built
    ∧ (∀ m ∈ mixed_lengths, (content m).length ≤ 255)
    ∧ mixed_lengths.length = 21
    ∧ record_start mixed_lengths 2 = 39
    ∧ mixed_built.offset = 74
    ∧ mixed_built.offset = record_start mixed_lengths 3
    ∧ record_start mixed_lengths 2 < mixed_built.offset :=
  ⟨by decide!, by decide, rfl, by decide!, rfl,
    ((offset_first_appends lenMD5 1 mixed_lengths mixed_built (by decide!)).2
      (by decide)).2 rfl⟩

/-- **C14, counterexample.** With `lenMD5` the 21 calls on `mixed_lengths` each
return 1.  After the first 20 of them `offset` is 39, the start of record 2,
not 5; after all 21 it is 74, the start of record 3, not 39. -/
theorem offset_after_20_and_21_appends :
    record_start mixed_lengths 2 = 39 ∧ record_start mixed_lengths 3 = 74
    ∧ ∃ a20 a21, add_messages lenMD5 1 init_archive (mixed_lengths.take 20) = some a20
      ∧ (mixed_lengths.take 20).length = 20 ∧ a20.offset = 39
      ∧ add_messages lenMD5 1 init_archive mixed_lengths = some a21
      ∧ mixed_lengths.length = 21 ∧ a21.offset = 74 := by
  refine ⟨by decide!, by decide!, ?_⟩
  have h := mixed_lengths_run
  cases hb : add_messages lenMD5 1 init_archive mixed_lengths with
  | none => rw [hb] at h; simp at h
  | some built =>
    have ho21 := add_messages_offset_start lenMD5 1 mixed_lengths built (by decide) hb
    have hsplit : mixed_lengths = mixed_lengths.take 20 ++ mixed_lengths.drop 20 :=
      (List.take_append_drop 20 mixed_lengths).symm
    rw [hsplit] at hb
    obtain ⟨a20, h20, -⟩ := add_messages_append lenMD5 1 _ _ init_archive built hb
    have ho := add_messages_offset_start lenMD5 1 (mixed_lengths.take 20) a20
      (by decide) h20
    refine ⟨a20, built, h20, by decide, ?_, rfl, rfl, ?_⟩
    · rw [ho]
      decide!
    · rw [ho21]
      decide!

/-! ## The peer registry -/

theorem find_prev_eq (ip : Nat) : ∀ (nodes : List node) (prev : Nat),
    find_prev ip (prev + nodes.length) nodes prev
      = prev + (nodes.takeWhile (fun n => n.ip != ip)).length := by
  intro nodes
  induction nodes with
  | nil => intro prev; simp [find_prev]
  | cons n rest ih =>
    intro prev
    have hne : ¬ prev = prev + (n :: rest).length := by simp
    rw [find_prev, if_neg hne]
    by_cases hip : n.ip = ip
    · simp [hip]
    · rw [if_neg hip]
      have e : prev + (n :: rest).length = (prev + 1) + rest.length := by simp; omega
      rw [e, ih (prev + 1)]
      simp [List.takeWhile_cons, hip]
      omega

theorem drop_takeWhile_none (ip : Nat) : ∀ nodes : List node,
    (¬ ∃ n ∈ nodes, n.ip = ip) →
      nodes.drop (nodes.takeWhile (fun n => n.ip != ip)).length = []
      ∧ erase_first ip nodes = nodes := by
  intro nodes
  induction nodes with
  | nil => intro _; simp [erase_first]
  | cons n rest ih =>
    intro h
    have hn : n.ip ≠ ip := fun e => h ⟨n, List.mem_cons_self _ _, e⟩
    have hrest : ¬ ∃ m ∈ rest, m.ip = ip :=
      fun ⟨m, hm, e⟩ => h ⟨m, List.mem_cons_of_mem _ hm, e⟩
    obtain ⟨h1, h2⟩ := ih hrest
    constructor
    · simp [List.takeWhile_cons, hn, h1]
    · rw [erase_first, if_neg hn, h2]

theorem drop_takeWhile_some (ip : Nat) : ∀ nodes : List node,
    (∃ n ∈ nodes, n.ip = ip) →
      ∃ m rest, nodes.drop (nodes.takeWhile (fun n => n.ip != ip)).length = m :: rest
        ∧ m.ip = ip
        ∧ nodes.take (nodes.takeWhile (fun n => n.ip != ip)).length ++ rest
            = erase_first ip nodes
        ∧ (nodes.takeWhile (fun n => n.ip != ip)).length + 1 + rest.length = nodes.length := by
  intro nodes
  induction nodes with
  | nil => rintro ⟨n, hn, -⟩; simp at hn
  | cons n rest ih =>
    intro h
    by_cases hip : n.ip = ip
    · refine ⟨n, rest, ?_, hip, ?_, ?_⟩
      · simp [List.takeWhile_cons, hip]
      · simp [List.takeWhile_cons, hip, erase_first]
      · simp [List.takeWhile_cons, hip]; omega
    · have hrest : ∃ m ∈ rest, m.ip = ip := by
        obtain ⟨m, hm, e⟩ := h
        rcases List.mem_cons.1 hm with hm | hm
        · subst hm; exact absurd e hip
        · exact ⟨m, hm, e⟩
      obtain ⟨m, rest2, h1, h2, h3, h4⟩ := ih hrest
      refine ⟨m, rest2, ?_, h2, ?_, ?_⟩
      · simp [List.takeWhile_cons, hip, h1]
      · simp [List.takeWhile_cons, hip, erase_first, h3]
      · simp [List.takeWhile_cons, hip]; omega

theorem list_to_str_loop_eq : ∀ nodes : List node,
    list_to_str_loop nodes.length nodes = peers_bytes nodes := by
  intro nodes
  induction nodes with
  | nil => rfl
  | cons n rest ih => simp [list_to_str_loop, peers_bytes, ih]

theorem peers_bytes_length : ∀ nodes : List node,
    (peers_bytes nodes).length = 4 * nodes.length := by
  intro nodes
  induction nodes with
  | nil => rfl
  | cons n rest ih => simp [peers_bytes, ip_bytes, ih]; omega

theorem decode_ip_bytes (ip : Nat) (h : ip < 2 ^ 32) : decode_ip (ip_bytes ip) = ip := by
  simp [decode_ip, ip_bytes]
  omega

theorem add_peer_wf (list : peer_list) (ip sock : Nat)
    (hlast : list.last = list.nodes.length) (hsize : list.size = list.nodes.length) :
    (add_peer list ip sock).nodes = list.nodes ++ [{ ip := ip, sock := sock }]
    ∧ (add_peer list ip sock).last = (add_peer list ip sock).nodes.length
    ∧ (add_peer list ip sock).size = (add_peer list ip sock).nodes.length
    ∧ (add_peer list ip sock).head = list.head
    ∧ (add_peer list ip sock).str
        = some (2 :: (BE32 (add_peer list ip sock).size
            ++ peers_bytes (add_peer list ip sock).nodes)) := by
  have hn : list.nodes.take list.last ++ [{ ip := ip, sock := sock }]
      = list.nodes ++ [{ ip := ip, sock := sock }] := by
    rw [hlast, List.take_length]
  have hl : list.size + 1 = (list.nodes ++ [({ ip := ip, sock := sock } : node)]).length := by
    simp [hsize]
  refine ⟨?_, ?_, ?_, rfl, ?_⟩
  · simp [add_peer, list_to_str, hn]
  · simp [add_peer, list_to_str, hn, hlast]
  · simp [add_peer, list_to_str, hn, hsize]
  · simp only [add_peer, list_to_str, hn]
    rw [hl, list_to_str_loop_eq]

theorem remove_peer_absent (list : peer_list) (ip : Nat)
    (hlast : list.last = list.nodes.length) (h : ¬ ∃ n ∈ list.nodes, n.ip = ip) :
    remove_peer list ip = list := by
  have hp := find_prev_eq ip list.nodes 0
  rw [Nat.zero_add, ← hlast, Nat.zero_add] at hp
  unfold remove_peer
  simp only [hp, (drop_takeWhile_none ip list.nodes h).1]

theorem remove_peer_present (list : peer_list) (ip : Nat)
    (hlast : list.last = list.nodes.length) (hsize : list.size = list.nodes.length)
    (h : ∃ n ∈ list.nodes, n.ip = ip) :
    (remove_peer list ip).nodes = erase_first ip list.nodes
    ∧ (remove_peer list ip).nodes.length + 1 = list.nodes.length
    ∧ (remove_peer list ip).last = (remove_peer list ip).nodes.length
    ∧ (remove_peer list ip).size = list.size - 1
    ∧ (remove_peer list ip).head = list.head
    ∧ (remove_peer list ip).str
        = some (2 :: (BE32 (remove_peer list ip).size
            ++ peers_bytes (remove_peer list ip).nodes)) := by
  have hp := find_prev_eq ip list.nodes 0
  rw [Nat.zero_add, ← hlast, Nat.zero_add] at hp
  obtain ⟨m, rest, h1, -, h3, h4⟩ := drop_takeWhile_some ip list.nodes h
  have hlen : (erase_first ip list.nodes).length + 1 = list.nodes.length := by
    rw [← h3, List.length_append, List.length_take]
    omega
  have hr : remove_peer list ip = list_to_str { list with
      nodes := erase_first ip list.nodes,
      last := if (list.nodes.takeWhile (fun n => n.ip != ip)).length + 1 = list.last then
                (list.nodes.takeWhile (fun n => n.ip != ip)).length
              else if (list.nodes.takeWhile (fun n => n.ip != ip)).length + 1 < list.last then
                list.last - 1 else list.last,
      size := list.size - 1 } := by
    unfold remove_peer
    simp only [hp, h1, h3]
  rw [hr]
  refine ⟨rfl, hlen, ?_, rfl, rfl, ?_⟩
  · simp only [list_to_str]
    rw [hlast]
    split
    · omega
    · rename_i hne
      rw [if_pos (by omega)]
      omega
  · simp only [list_to_str]
    have : list.size - 1 = (erase_first ip list.nodes).length := by omega
    rw [this, list_to_str_loop_eq]


theorem init_list_inv : registry_inv init_list :=
  ⟨rfl, rfl, rfl, Or.inl rfl⟩

theorem apply_op_inv (list : peer_list) (op : peer_op) (h : registry_inv list) :
    registry_inv (apply_op list op) := by
  cases op with
  | add ip sock =>
    obtain ⟨-, h2, h3, h4, h5⟩ := add_peer_wf list ip sock h.last_eq h.size_eq
    exact ⟨h2, h3, by rw [apply_op, h4]; exact h.head_ip, Or.inr h5⟩
  | remove ip =>
    by_cases hex : ∃ n ∈ list.nodes, n.ip = ip
    · obtain ⟨h1, h2, h3, h4, h5, h6⟩ :=
        remove_peer_present list ip h.last_eq h.size_eq hex
      refine ⟨h3, ?_, by rw [apply_op, h5]; exact h.head_ip, Or.inr h6⟩
      show (remove_peer list ip).size = (remove_peer list ip).nodes.length
      rw [h4, h.size_eq]
      omega
    · show registry_inv (remove_peer list ip)
      rw [remove_peer_absent list ip h.last_eq hex]
      exact h

theorem run_ops_inv : ∀ (ops : List peer_op) (list : peer_list),
    registry_inv list → registry_inv (run_ops list ops) := by
  intro ops
  induction ops with
  | nil => intro list h; exact h
  | cons op ops ih =>
    intro list h
    exact ih _ (apply_op_inv list op h)

theorem apply_op_str (list : peer_list) (op : peer_op) (h : registry_inv list)
    (hs : list.str ≠ none) : (apply_op list op).str ≠ none := by
  cases op with
  | add ip sock => simp [apply_op, add_peer, list_to_str]
  | remove ip =>
    by_cases hex : ∃ n ∈ list.nodes, n.ip = ip
    · have := (remove_peer_present list ip h.last_eq h.size_eq hex).2.2.2.2.2
      show (remove_peer list ip).str ≠ none
      rw [this]
      simp
    · show (remove_peer list ip).str ≠ none
      rw [remove_peer_absent list ip h.last_eq hex]
      exact hs

theorem run_ops_str : ∀ (ops : List peer_op) (list : peer_list),
    registry_inv list → list.str ≠ none → (run_ops list ops).str ≠ none := by
  intro ops
  induction ops with
  | nil => intro list _ hs; exact hs
  | cons op ops ih =>
    intro list h hs
    exact ih _ (apply_op_inv list op h) (apply_op_str list op h hs)

theorem run_ops_str_of_add : ∀ (ops : List peer_op) (list : peer_list),
    registry_inv list → (∃ ip sock, peer_op.add ip sock ∈ ops) →
      (run_ops list ops).str ≠ none := by
  intro ops
  induction ops with
  | nil => rintro list _ ⟨ip, sock, h⟩; simp at h
  | cons op ops ih =>
    rintro list h ⟨ip, sock, hmem⟩
    rcases List.mem_cons.1 hmem with hm | hm
    · subst hm
      exact run_ops_str ops _ (apply_op_inv list _ h) (by simp [apply_op, add_peer, list_to_str])
    · exact ih _ (apply_op_inv list op h) ⟨ip, sock, hm⟩

theorem run_ops_str_none : ∀ (ops : List peer_op) (list : peer_list),
    registry_inv list → list.nodes = [] → list.str = none →
      (¬ ∃ ip sock, peer_op.add ip sock ∈ ops) → run_ops list ops = list := by
  intro ops
  induction ops with
  | nil => intro list _ _ _ _; rfl
  | cons op ops ih =>
    intro list h hn hs hno
    cases op with
    | add ip sock => exact absurd ⟨ip, sock, List.mem_cons_self _ _⟩ hno
    | remove ip =>
      have hab : remove_peer list ip = list :=
        remove_peer_absent list ip h.last_eq (by rw [hn]; simp)
      show run_ops (remove_peer list ip) ops = list
      rw [hab]
      exact ih list h hn hs (fun ⟨i, s, hm⟩ => hno ⟨i, s, List.mem_cons_of_mem _ hm⟩)

theorem is_connected_loop_iff (ip : Nat) : ∀ nodes : List node,
    is_connected_loop ip nodes = 1 ↔ ∃ n ∈ nodes, n.ip = ip := by
  intro nodes
  induction nodes with
  | nil => simp [is_connected_loop]
  | cons n rest ih =>
    rw [is_connected_loop]
    by_cases h : n.ip = ip
    · simp [h]
    · rw [if_neg h, ih]
      simp [h]

theorem is_connected_loop_values (ip : Nat) : ∀ nodes : List node,
    is_connected_loop ip nodes = 0 ∨ is_connected_loop ip nodes = 1 := by
  intro nodes
  induction nodes with
  | nil => left; rfl
  | cons n rest ih =>
    rw [is_connected_loop]
    split
    · right; rfl
    · exact ih

/-- **C15, failing input.** On the registry `init_list()` returns, which has
no entry, `is_connected(list, 0)` returns 1: the scan starts at the head node,
whose `ip` is 0.  The same holds in every state the mutators reach, and for
every address `is_connected` returns 1 exactly when the address is 0 or some
entry has it. -/
theorem is_connected_zero :
    init_list.nodes = [] ∧ is_connected init_list 0 = 1
    ∧ (∀ ops : List peer_op, is_connected (run_ops init_list ops) 0 = 1)
    ∧ (∀ (ops : List peer_op) (ip : Nat), is_connected (run_ops init_list ops) ip = 1
        ↔ (ip = 0 ∨ ∃ n ∈ (run_ops init_list ops).nodes, n.ip = ip)) := by
  have key : ∀ (ops : List peer_op) (ip : Nat), is_connected (run_ops init_list ops) ip = 1
      ↔ (ip = 0 ∨ ∃ n ∈ (run_ops init_list ops).nodes, n.ip = ip) := by
    intro ops ip
    have hinv := run_ops_inv ops init_list init_list_inv
    unfold is_connected
    rw [is_connected_loop_iff]
    simp only [List.mem_cons, exists_eq_or_imp, hinv.head_ip]
    constructor
    · rintro (h | h)
      · exact Or.inl h.symm
      · exact Or.inr h
    · rintro (h | h)
      · exact Or.inl h.symm
      · exact Or.inr h
  exact ⟨rfl, rfl, fun ops => (key ops 0).2 (Or.inl rfl), key⟩

/-- **C16, failing input.** Two connections from the address 10.0.0.2, on the
sockets 4 and 5: each receiver thread calls `add_peer`, which appends without
looking for the address, and the registry holds two entries with the same
`ip`. -/
theorem add_peer_twice :
    (run_ops init_list [peer_op.add 33554442 4, peer_op.add 33554442 5]).nodes
      = [{ ip := 33554442, sock := 4 }, { ip := 33554442, sock := 5 }]
    ∧ (run_ops init_list [peer_op.add 33554442 4, peer_op.add 33554442 5]).size = 2
    ∧ (run_ops init_list [peer_op.add 33554442 4, peer_op.add 33554442 5]).str
      = some [2, 0, 0, 0, 2, 10, 0, 0, 2, 10, 0, 0, 2] := by
  decide

/-- **C17.** For a registry whose `last` pointer is at the final node and whose
`size` is the number of entries: if some entry has the address, `remove_peer`
leaves the entry sequence with the first entry of that address removed, all
other entries and their order unchanged, `last` at the final entry and `size`
one less; if no entry has the address, the registry is unchanged. -/
theorem remove_peer_first_match (list : peer_list) (ip : Nat)
    (hlast : list.last = list.nodes.length) (hsize : list.size = list.nodes.length) :
    ((∃ n ∈ list.nodes, n.ip = ip) →
        (remove_peer list ip).nodes = erase_first ip list.nodes
        ∧ (remove_peer list ip).last = (remove_peer list ip).nodes.length
        ∧ (remove_peer list ip).size + 1 = list.size
        ∧ (remove_peer list ip).size = (remove_peer list ip).nodes.length)
    ∧ ((¬ ∃ n ∈ list.nodes, n.ip = ip) → remove_peer list ip = list) := by
  refine ⟨?_, remove_peer_absent list ip hlast⟩
  intro h
  obtain ⟨h1, h2, h3, h4, -, -⟩ := remove_peer_present list ip hlast hsize h
  refine ⟨h1, h3, ?_, ?_⟩
  · rw [h4]; omega
  · rw [h4]; omega

/-- Removing 10.0.0.2 from a registry that holds it twice removes the first of
the two entries. -/
theorem remove_peer_first_match_witness :
    (run_ops init_list [peer_op.add 33554442 4, peer_op.add 16777343 5,
        peer_op.add 33554442 6]).last = 3
    ∧ (remove_peer (run_ops init_list [peer_op.add 33554442 4, peer_op.add 16777343 5,
        peer_op.add 33554442 6]) 33554442).nodes
      = [{ ip := 16777343, sock := 5 }, { ip := 33554442, sock := 6 }] := by
  refine ⟨by decide, ?_⟩
  have h := (remove_peer_first_match (run_ops init_list [peer_op.add 33554442 4,
    peer_op.add 16777343 5, peer_op.add 33554442 6]) 33554442 (by decide) (by decide)).1
    ⟨{ ip := 33554442, sock := 4 }, by decide, rfl⟩
  rw [h.1]
  decide

/-- **C18 (amended).** In every state reachable from `init_list()` by
`add_peer` and `remove_peer`, `size` is the number of entries.  Once `add_peer`
has been called, the cached blob is `02 ‖ BE32(size) ‖` the four address bytes
of each entry in list order, low byte of the stored integer first, of length
`5 + 4 * size`, and decoding an entry as `process_peerlist` does gives back the
stored 32-bit address.  Before the first `add_peer` the blob is the NULL
pointer. -/
theorem cached_blob_consistent (ops : List peer_op) :
    (run_ops init_list ops).size = (run_ops init_list ops).nodes.length
    ∧ ((∃ ip sock, peer_op.add ip sock ∈ ops) →
        (run_ops init_list ops).str
          = some (2 :: (BE32 (run_ops init_list ops).size
              ++ peers_bytes (run_ops init_list ops).nodes))
        ∧ (2 :: (BE32 (run_ops init_list ops).size
              ++ peers_bytes (run_ops init_list ops).nodes)).length
            = 5 + 4 * (run_ops init_list ops).size)
    ∧ ((¬ ∃ ip sock, peer_op.add ip sock ∈ ops) → (run_ops init_list ops).str = none)
    ∧ (∀ n ∈ (run_ops init_list ops).nodes, n.ip < 2 ^ 32 →
        decode_ip (ip_bytes n.ip) = n.ip) := by
  have hinv := run_ops_inv ops init_list init_list_inv
  refine ⟨hinv.size_eq, ?_, ?_, fun n _ hn => decode_ip_bytes n.ip hn⟩
  · intro hadd
    have hs := run_ops_str_of_add ops init_list init_list_inv hadd
    constructor
    · rcases hinv.str_eq with h | h
      · exact absurd h hs
      · exact h
    · simp [BE32_length, peers_bytes_length, hinv.size_eq]
      omega
  · intro hno
    rw [run_ops_str_none ops init_list init_list_inv rfl rfl hno]
    rfl

/-- **C18, counterexample.** In the state `init_list()` returns, and after a
`remove_peer` call on it, the cached blob is the NULL pointer, not
`02 00 00 00 00`. -/
theorem cached_blob_initially_null :
    (run_ops init_list []).str = none
    ∧ (run_ops init_list [peer_op.remove 33554442]).str = none
    ∧ (run_ops init_list []).size = 0 := by
  decide

/-- **C19.** For an entry whose four bytes decode to the local public address
or to an address for which `is_connected` returns 1, the loop body of
`process_peerlist` calls `init_peer_socket` not at all, creates no thread and
leaves the registry as it is.  The registry is the same after the whole of
`process_peerlist`, and a peer-list with only such entries causes no action. -/
theorem known_entry_skipped (myaddr : Nat) (init_peer_socket : List Nat → Option Nat)
    (list : peer_list) (buf : List Nat)
    (h : decode_ip buf = myaddr ∨ is_connected list (decode_ip buf) = 1) :
    process_entry myaddr init_peer_socket list buf = (list, [])
    ∧ (∀ stream, (process_peerlist myaddr init_peer_socket list stream).1 = list)
    ∧ (∀ (n : Nat) (stream : List Nat),
        (∀ i, i < n → (decode_ip ((stream.drop (4 * i)).take 4) = myaddr
          ∨ is_connected list (decode_ip ((stream.drop (4 * i)).take 4)) = 1)) →
        process_peerlist_loop myaddr init_peer_socket n stream list = (list, [])) := by
  have hentry : ∀ b : List Nat,
      (decode_ip b = myaddr ∨ is_connected list (decode_ip b) = 1) →
      process_entry myaddr init_peer_socket list b = (list, []) := by
    intro b hb
    unfold process_entry
    simp only
    by_cases hm : decode_ip b = myaddr
    · rw [if_pos hm]
    · rw [if_neg hm]
      rcases hb with hb | hb
      · exact absurd hb hm
      · rw [if_neg (by rw [hb]; decide)]
  have hfst : ∀ (l : peer_list) (b : List Nat),
      (process_entry myaddr init_peer_socket l b).1 = l := by
    intro l b
    unfold process_entry
    simp only
    split
    · rfl
    · split
      · split <;> rfl
      · rfl
  have hloop : ∀ (n : Nat) (stream : List Nat) (l : peer_list),
      (process_peerlist_loop myaddr init_peer_socket n stream l).1 = l := by
    intro n
    induction n with
    | zero => intro stream l; rfl
    | succ n ih =>
      intro stream l
      rw [process_peerlist_loop]
      simp only [ih, hfst]
  refine ⟨hentry buf h, fun stream => hloop _ _ _, ?_⟩
  intro n
  induction n with
  | zero => intro stream _; rfl
  | succ n ih =>
    intro stream hall
    have h0 := hall 0 (by omega)
    simp only [Nat.mul_zero, List.drop_zero] at h0
    have hrest : ∀ i, i < n → (decode_ip (((stream.drop 4).drop (4 * i)).take 4) = myaddr
        ∨ is_connected list (decode_ip (((stream.drop 4).drop (4 * i)).take 4)) = 1) := by
      intro i hi
      have := hall (i + 1) (by omega)
      rw [List.drop_drop]
      have e : 4 + 4 * i = 4 * (i + 1) := by omega
      rw [e]
      exact this
    rw [process_peerlist_loop]
    simp only [hentry _ h0]
    rw [ih (stream.drop 4) hrest]
    rfl

/-- The entry 1.0.0.0 when the local address is 1.0.0.0, and the entry
10.0.0.2 when it is registered. -/
theorem known_entry_skipped_witness :
    decode_ip [1, 0, 0, 0] = 1
    ∧ process_entry 1 (fun _ => some 9) init_list [1, 0, 0, 0] = (init_list, [])
    ∧ is_connected (add_peer init_list 33554442 4) (decode_ip [10, 0, 0, 2]) = 1 :=
  ⟨by decide,
    (known_entry_skipped 1 (fun _ => some 9) init_list [1, 0, 0, 0] (Or.inl (by decide))).1,
    by decide⟩

/-- **C20, failing schedule.** Two receiver threads each process a peer-list
with the entry 10.0.0.2 (the local address is 1.0.0.0).  Each runs the locked
section of `process_peerlist`: `is_connected` returns 0, the connection
succeeds (sockets 7 and 8) and a thread pair is created; the registration is
not in that section but in the created receiver thread.  When the second
section runs before the first created thread has registered, both threads
register: two entries and two sockets for one address.  When the first thread
registers before the second section runs, there is one entry.  And one
peer-list with the two new entries 10.0.0.2 and 10.0.0.3, whose created threads
both start after the second round has stored its socket in `newpeersock`,
gives two entries for 10.0.0.3 on the socket 8. -/
theorem duplicate_connection :
    (run_events 1 [event.entry 0 [10, 0, 0, 2] (some 7)]).list.nodes = []
    ∧ (run_events 1 [event.entry 0 [10, 0, 0, 2] (some 7)]).created = [0]
    ∧ (run_events 1 [event.entry 0 [10, 0, 0, 2] (some 7), event.start 0 0]).pending
        = [{ ip := 33554442, sock := 7 }]
    ∧ (run_events 1 [event.entry 0 [10, 0, 0, 2] (some 7),
        event.entry 1 [10, 0, 0, 2] (some 8), event.start 0 0, event.start 0 0,
        event.register 0, event.register 0]).list.nodes
      = [{ ip := 33554442, sock := 7 }, { ip := 33554442, sock := 8 }]
    ∧ (run_events 1 [event.entry 0 [10, 0, 0, 2] (some 7), event.start 0 0,
        event.register 0, event.entry 1 [10, 0, 0, 2] (some 8)]).list.nodes
      = [{ ip := 33554442, sock := 7 }]
    ∧ (run_events 1 [event.entry 0 [10, 0, 0, 2] (some 7),
        event.entry 0 [10, 0, 0, 3] (some 8), event.start 0 0, event.start 0 0,
        event.register 0, event.register 0]).list.nodes
      = [{ ip := 50331658, sock := 8 }, { ip := 50331658, sock := 8 }] := by
  decide

/-! ## Header, length and the receive buffer -/

/-- **C22, failing input.** For a count `n` with `5 + 289 n < 2^32` the size
passed to `malloc` is at least the number of bytes `process_archive` writes,
whatever the length bytes.  The count 14861479 (`00 E2 C4 A7`) is a 32-bit
value for which `5 + 289 n` wraps to 140: every stream of that many records
asks the loop for at least 490428812 bytes, so a write falls outside the
buffer, and by the end of its fifth round the loop has to write at least
5 + 5 * 33 = 170 bytes into the 140-byte buffer. -/
theorem recv_capacity_wraps :
    (∀ (rs : List record) (rest : List Nat), (∀ r ∈ rs, r.wf) → 5 + rs.length * 289 < 2 ^ 32 →
        ∃ c, recv_archive (BE32 rs.length ++ (records_bytes rs ++ rest)) = some c
          ∧ c.str.length = 5 + (records_bytes rs).length
          ∧ c.str.length ≤ recv_capacity rs.length)
    ∧ 14861479 < 2 ^ 32 ∧ recv_capacity 14861479 = 140
    ∧ (∃ rs : List record, rs.length = 14861479 ∧ ∀ r ∈ rs, r.wf)
    ∧ (∀ (rs : List record) (rest : List Nat), (∀ r ∈ rs, r.wf) → rs.length = 14861479 →
        490428812 ≤ 5 + (records_bytes rs).length
        ∧ recv_capacity rs.length < 5 + (records_bytes rs).length
        ∧ recv_archive (BE32 rs.length ++ (records_bytes rs ++ rest)) = none)
    ∧ (∀ (rs : List record) (rest hdr : List Nat), (∀ r ∈ rs, r.wf) → rs.length = 5 →
        170 ≤ 5 + (records_bytes rs).length
        ∧ recv_records (recv_capacity 14861479) 5 (records_bytes rs ++ rest) hdr 5 = none) := by
  have hcap : recv_capacity 14861479 = 140 := by
    unfold recv_capacity
    norm_num
  refine ⟨?_, by norm_num, hcap, ?_, ?_, ?_⟩
  · intro rs rest hwf hlt
    refine ⟨_, recv_archive_rest rs hlt hwf rest, ?_, ?_⟩
    · show (4 :: (BE32 rs.length ++ records_bytes rs)).length = _
      simp only [List.length_cons, List.length_append, BE32_length]
      omega
    · have hb := (records_bytes_length_bounds rs hwf).2
      show (4 :: (BE32 rs.length ++ records_bytes rs)).length ≤ recv_capacity rs.length
      rw [recv_capacity_eq rs.length hlt]
      simp only [List.length_cons, List.length_append, BE32_length]
      omega
  · refine ⟨List.replicate 14861479 ⟨[], List.replicate 16 0, List.replicate 16 0⟩,
      List.length_replicate _ _, ?_⟩
    intro r hr
    rw [List.eq_of_mem_replicate hr]
    exact ⟨by decide, by decide, by decide⟩
  · intro rs rest hwf hlen
    have hb := (records_bytes_length_bounds rs hwf).1
    have hlt : recv_capacity rs.length < 5 + (records_bytes rs).length := by
      rw [hlen, hcap]
      rw [hlen] at hb
      omega
    rw [hlen] at hb
    exact ⟨by omega, hlt, recv_archive_overflow rs (by omega) hwf rest hlt⟩
  · intro rs rest hdr hwf hlen
    have hb := (records_bytes_length_bounds rs hwf).1
    rw [hlen] at hb
    refine ⟨by omega, ?_⟩
    have h := recv_records_overflow rs rest hdr 5 (recv_capacity 14861479) hwf
      (by rw [hcap]; omega) (by rw [hcap]; omega)
    rw [hlen] at h
    exact h

/-! ## The two locked sections of `process_archive` -/

theorem is_valid_values (MD5 : List Nat → Digest) (a : archive) :
    (is_valid MD5 a).1 = 0 ∨ (is_valid MD5 a).1 = 1 :=
  is_valid_loop_values MD5 a.str a.size 1 5 5 0 a.offset

theorem process_archive_test_iff (MD5 : List Nat → Digest) (active cand : archive) :
    (process_archive_test MD5 active cand).1 = true
      ↔ (cand.size > active.size ∧ (is_valid MD5 cand).1 = 1) := by
  unfold process_archive_test
  split
  · rename_i hgt
    simp only [decide_eq_true_eq]
    rcases is_valid_values MD5 cand with h | h
    · rw [h]; simp
    · rw [h]; simp [hgt]
  · rename_i hgt
    simp [hgt]

theorem process_archive_test_fields (MD5 : List Nat → Digest) (active cand : archive) :
    (process_archive_test MD5 active cand).2.str = cand.str
    ∧ (process_archive_test MD5 active cand).2.len = cand.len
    ∧ (process_archive_test MD5 active cand).2.size = cand.size := by
  unfold process_archive_test
  split
  · exact is_valid_fields MD5 cand
  · exact ⟨rfl, rfl, rfl⟩

theorem process_archive_test_snd (MD5 : List Nat → Digest) (active cand : archive)
    (h : (process_archive_test MD5 active cand).1 = true) :
    (process_archive_test MD5 active cand).2 = (is_valid MD5 cand).2 := by
  have hgt := ((process_archive_test_iff MD5 active cand).1 h).1
  unfold process_archive_test
  rw [if_pos hgt]

theorem process_archive_size_le (MD5 : List Nat → Digest) (active a1 : archive)
    (stream : List Nat) (h : process_archive MD5 active stream = some a1) :
    active.size ≤ a1.size := by
  unfold process_archive at h
  cases hc : recv_archive stream with
  | none => rw [hc] at h; simp at h
  | some cand =>
    rw [hc] at h
    simp only [Option.map_some', Option.some.injEq] at h
    by_cases ht : (process_archive_test MD5 active cand).1 = true
    · rw [if_pos ht] at h
      have hgt := ((process_archive_test_iff MD5 active cand).1 ht).1
      rw [← h, (process_archive_test_fields MD5 active cand).2.2]
      omega
    · rw [if_neg ht] at h
      rw [h]

theorem process_archive_foldlM_size_le (MD5 : List Nat → Digest) :
    ∀ (streams : List (List Nat)) (active final : archive),
      streams.foldlM (process_archive MD5) active = some final → active.size ≤ final.size := by
  intro streams
  induction streams with
  | nil =>
    intro active final h
    simp only [List.foldlM_nil, pure, Option.some.injEq] at h
    rw [h]
  | cons s streams ih =>
    intro active final h
    rw [List.foldlM_cons] at h
    cases h1 : process_archive MD5 active s with
    | none => rw [h1] at h; simp at h
    | some a1 =>
      rw [h1] at h
      simp only [Option.some_bind, bind] at h
      exact le_trans (process_archive_size_le MD5 active a1 s h1) (ih a1 final h)

set_option maxRecDepth 100000 in
/-- **C5, failing schedule.** The test of `process_archive` holds exactly when
the candidate has more records than the active archive and `is_valid` returns
1 on it, and `is_valid` changes only the `offset` of the candidate.  A call
that no other thread interleaves replaces the active archive by the candidate
exactly in that case and otherwise leaves it as it is; over any sequence of
such calls the count does not decrease, and a candidate with a record whose
digest does not start with two zero bytes is rejected.  But the test runs
under the read lock and the assignment under the write lock, without a second
test: when two receiver threads test two valid candidates, both with more
records than the active archive, before either assigns, both assign, and when
the larger one is assigned first the count goes down; so for the candidates
`hi_there` (2 records) and `hi` (1 record) against the empty archive, with
`toyMD5`, the count goes from 2 to 1. -/
theorem process_archive_no_retest :
    (∀ (MD5 : List Nat → Digest) (active cand : archive),
        ((process_archive_test MD5 active cand).1 = true
          ↔ (cand.size > active.size ∧ (is_valid MD5 cand).1 = 1))
        ∧ (process_archive_test MD5 active cand).2.str = cand.str
        ∧ (process_archive_test MD5 active cand).2.len = cand.len
        ∧ (process_archive_test MD5 active cand).2.size = cand.size)
    ∧ (∀ (MD5 : List Nat → Digest) (active cand : archive) (stream : List Nat),
        recv_archive stream = some cand →
        ((cand.size > active.size ∧ (is_valid MD5 cand).1 = 1) →
          process_archive MD5 active stream = some (is_valid MD5 cand).2)
        ∧ (¬ (cand.size > active.size ∧ (is_valid MD5 cand).1 = 1) →
          process_archive MD5 active stream = some active)
        ∧ run_arch_events MD5 { active_arch := active, waiting := [] }
            [arch_event.test stream, arch_event.commit 0]
          = (process_archive MD5 active stream).map
              (fun a => { active_arch := a, waiting := [] }))
    ∧ (∀ (MD5 : List Nat → Digest) (streams : List (List Nat)) (active final : archive),
        streams.foldlM (process_archive MD5) active = some final → active.size ≤ final.size)
    ∧ (∀ (MD5 : List Nat → Digest) (active : archive) (rs : List record),
        5 + rs.length * 289 < 2 ^ 32 → (∀ r ∈ rs, r.wf) →
        (∃ r ∈ rs, ¬ (r.digest.getD 0 0 = 0 ∧ r.digest.getD 1 0 = 0)) →
        process_archive MD5 active (BE32 rs.length ++ records_bytes rs) = some active)
    ∧ (∀ (MD5 : List Nat → Digest) (active c2 c1 : archive) (s2 s1 : List Nat),
        recv_archive s2 = some c2 → recv_archive s1 = some c1 →
        active.size < c1.size → c1.size < c2.size →
        (is_valid MD5 c2).1 = 1 → (is_valid MD5 c1).1 = 1 →
        run_arch_events MD5 { active_arch := active, waiting := [] }
            [arch_event.test s2, arch_event.test s1, arch_event.commit 0]
          = some { active_arch := (is_valid MD5 c2).2, waiting := [(is_valid MD5 c1).2] }
        ∧ run_arch_events MD5 { active_arch := active, waiting := [] }
            [arch_event.test s2, arch_event.test s1, arch_event.commit 0, arch_event.commit 0]
          = some { active_arch := (is_valid MD5 c1).2, waiting := [] }
        ∧ (is_valid MD5 c1).2.size < (is_valid MD5 c2).2.size)
    ∧ (run_arch_events toyMD5 { active_arch := init_archive, waiting := [] }
          [arch_event.test (hi_there.str.drop 1), arch_event.test (hi.str.drop 1),
            arch_event.commit 0]).map (fun w => (w.active_arch.size, w.waiting.length))
        = some (2, 1)
    ∧ (run_arch_events toyMD5 { active_arch := init_archive, waiting := [] }
          [arch_event.test (hi_there.str.drop 1), arch_event.test (hi.str.drop 1),
            arch_event.commit 0, arch_event.commit 0]).map
          (fun w => (w.active_arch.size, w.waiting.length))
        = some (1, 0) := by
  have hseq : ∀ (MD5 : List Nat → Digest) (active cand : archive) (stream : List Nat),
      recv_archive stream = some cand →
      ((cand.size > active.size ∧ (is_valid MD5 cand).1 = 1) →
        process_archive MD5 active stream = some (is_valid MD5 cand).2)
      ∧ (¬ (cand.size > active.size ∧ (is_valid MD5 cand).1 = 1) →
        process_archive MD5 active stream = some active) := by
    intro MD5 active cand stream hc
    unfold process_archive
    rw [hc]
    simp only [Option.map_some']
    constructor
    · intro h
      have ht := (process_archive_test_iff MD5 active cand).2 h
      rw [if_pos ht, process_archive_test_snd MD5 active cand ht]
    · intro h
      have ht : ¬ (process_archive_test MD5 active cand).1 = true :=
        fun ht => h ((process_archive_test_iff MD5 active cand).1 ht)
      rw [if_neg ht]
  refine ⟨fun MD5 active cand => ⟨process_archive_test_iff MD5 active cand,
      process_archive_test_fields MD5 active cand⟩, ?_,
    fun MD5 => process_archive_foldlM_size_le MD5, ?_, ?_, by decide, by decide⟩
  · intro MD5 active cand stream hc
    refine ⟨(hseq MD5 active cand stream hc).1, (hseq MD5 active cand stream hc).2, ?_⟩
    unfold process_archive
    simp only [run_arch_events, arch_step, hc, Option.map_some', Option.some_bind]
    by_cases ht : (process_archive_test MD5 active cand).1 = true
    · simp [ht, run_arch_events]
    · simp [ht, run_arch_events]
  · intro MD5 active rs hcap hwf ⟨r, hr, hbad⟩
    apply (hseq MD5 active _ _ (recv_archive_spec rs hcap hwf)).2
    rintro ⟨-, hv⟩
    exact hbad (is_valid_zero_digests MD5 _ (4 :: BE32 rs.length) rs (by simp [BE32_length])
      rfl rfl hwf hv r hr)
  · intro MD5 active c2 c1 s2 s1 h2 h1 hlt1 hlt2 hv2 hv1
    have ht2 := (process_archive_test_iff MD5 active c2).2 ⟨by omega, hv2⟩
    have ht1 := (process_archive_test_iff MD5 active c1).2 ⟨hlt1, hv1⟩
    have e2 := process_archive_test_snd MD5 active c2 ht2
    have e1 := process_archive_test_snd MD5 active c1 ht1
    refine ⟨?_, ?_, ?_⟩
    · simp [run_arch_events, arch_step, h2, h1, ht2, ht1, e2, e1]
    · simp [run_arch_events, arch_step, h2, h1, ht2, ht1, e2, e1]
    · rw [(is_valid_fields MD5 c1).2.2, (is_valid_fields MD5 c2).2.2]
      exact hlt2

end Chat
